import Mathlib

/-!
# Thread pool and adaptive parallel quicksort (`src/main.cpp`)

A shallow embedding of `swap`, `partition`, `quickSort`, `parallelQuickSort` and of
`ThreadPool` (`start`, `stop`, `pushTask`, `threadFunc`, `getActiveTasksCount`), followed by
the proofs of its properties.

Modelling conventions.

* `int` indices are integers (`Int`).  For a range with `0 ≤ low ≤ high < n` every index
  expression the code evaluates lies in `[low - 1, high + 1]`, so for an array whose length
  is an `int`, as in `main`, no index computation overflows.  Array elements are only
  compared and moved, never computed with.
* The array is a list of cells.  A load or store outside `[0, n)` is undefined behaviour in
  C++; here it makes the operation return `none`.  Every index that is dereferenced is
  recorded in the ghost log `trace`, every invocation of `partition` in the ghost log `calls`.
* `quickSort` recurses non-structurally; the embedding carries a recursion budget and returns
  `none` when it is exhausted.  `quickSort_spec` shows that the budget `quickSortFuel` always
  suffices.
* The pool is a transition system (`step`, `run`).  What a thread does while holding
  `m_locker` is one atomic step, with one exception: a worker that found the wait predicate
  false still holds the lock until it blocks (`Worker.preWait`).  That point matters because
  `stop()` writes `m_work` and calls `notify_all()` without taking the lock.  A blocked
  worker continues only after a notification (or a spurious wake-up), re-locks and
  re-evaluates the predicate, as `condition_variable::wait(lock, pred)` does.
* The body of a task is cut at the calls of `pushTask` (`Phase`).  `partition` and an inline
  `quickSort` are one step each: concurrently running tasks own pairwise disjoint index
  ranges and each touches only its own range (both proved below), so their memory accesses
  commute.
* `active_tasks` is a `size_t`; decrementing it at zero wraps to `SIZE_MAX`.  Increments are
  not wrapped: the queue cannot hold `2^64` closures.
-/

namespace PoolSort

/-! ## The array -/

/-- The shared array together with two ghost logs: the indices dereferenced so far and the
argument pairs of every `partition` invocation so far (newest first). -/
structure Mem where
  cells : List Int
  trace : List Int
  calls : List (Int × Int)
  deriving DecidableEq

/-- Value of cell `k`; `0` when `k` is not a valid index. -/
def rd (xs : List Int) (k : Int) : Int :=
  if k < 0 then 0 else xs.getD k.toNat 0

/-- Reading `arr[i]`. -/
def Mem.load (m : Mem) (i : Int) : Option (Int × Mem) :=
  if 0 ≤ i ∧ i < m.cells.length then
    some (rd m.cells i, { m with trace := i :: m.trace })
  else none

/-- Writing `arr[i] = v`. -/
def Mem.store (m : Mem) (i : Int) (v : Int) : Option Mem :=
  if 0 ≤ i ∧ i < m.cells.length then
    some { m with cells := m.cells.set i.toNat v, trace := i :: m.trace }
  else none

/-- `swap(arr[a], arr[b])`: `temp = a; a = b; b = temp`. -/
def swap (m : Mem) (a b : Int) : Option Mem := do
  let (temp, m) ← m.load a
  let (vb, m) ← m.load b
  let m ← m.store a vb
  m.store b temp

/-- The `for (j = low; j <= high - 1; ++j)` loop of `partition`; the first argument is the
number of iterations that remain. -/
def partitionLoop (pivot : Int) : Nat → Int → Int → Mem → Option (Int × Mem)
  | 0, _, i, m => some (i, m)
  | n + 1, j, i, m => do
    let (v, m) ← m.load j
    if v < pivot then
      let m ← swap m (i + 1) j
      partitionLoop pivot n (j + 1) (i + 1) m
    else
      partitionLoop pivot n (j + 1) i m

/-- `partition(arr, low, high)`. -/
def partition (m : Mem) (low high : Int) : Option (Int × Mem) := do
  let m := { m with calls := (low, high) :: m.calls }
  let (pivot, m) ← m.load high
  let (i, m) ← partitionLoop pivot (high - low).toNat low (low - 1) m
  let m ← swap m (i + 1) high
  some (i + 1, m)

/-- `quickSort(arr, low, high)` with a recursion budget. -/
def quickSort : Nat → Mem → Int → Int → Option Mem
  | 0, _, _, _ => none
  | fuel + 1, m, low, high =>
    if low ≥ high then some m
    else do
      let (pi, m) ← partition m low high
      let m ← quickSort fuel m low (pi - 1)
      quickSort fuel m (pi + 1) high

/-- A recursion budget that suffices for the range `[low, high]`. -/
def quickSortFuel (low high : Int) : Nat := (high - low + 1).toNat + 1

/-! ## The thread pool and the parallel sort -/

/-- `THRESHOLD`: minimal segment length for a parallel sort.  The transition system takes
the threshold as a parameter `T`. -/
def THRESHOLD : Int := 1000

/-- Largest value of `size_t`, the type of `active_tasks`. -/
def SIZE_MAX : Nat := 2 ^ 64 - 1

/-- `active_tasks--` on a `size_t`. -/
def decrement (a : Nat) : Nat := if a = 0 then SIZE_MAX else a - 1

/-- Program point of a running task, that is of the closure that `pushTask` builds around
`parallelQuickSort(tpool, arr, low, high)`:
`entry`: the closure was invoked, the body has not begun (line 133);
`left`: `partition` returned `pi`, the left sub-range is to be handled (line 136);
`right`: the left sub-range was handled, the right one is next (line 145);
`ret`: the body returned, `active_tasks--` is next (line 70). -/
inductive Phase where
  | entry (low high : Int)
  | left (low pi high : Int)
  | right (low pi high : Int)
  | ret
  deriving DecidableEq

/-- Program point of a worker thread in `threadFunc`:
`loopHead`: about to lock `m_locker` (line 83);
`preWait`: inside `wait`, holding the lock, the predicate was found false, about to block;
`blocked`: blocked in `wait`, the lock released;
`woken`: notified, about to re-lock and re-evaluate the predicate;
`running p`: executing `task_to_do()` at program point `p` (line 99);
`exited`: returned from `threadFunc` (line 86). -/
inductive Worker where
  | loopHead
  | preWait
  | blocked
  | woken
  | running (p : Phase)
  | exited
  deriving DecidableEq

/-- Program point of the thread that calls `stop()`: not called yet, after
`m_work.store(false)`, after `notify_all()` (joining the workers).  The destructors call
`stop()` a second time only after the first call has joined every worker, where it changes
nothing. -/
inductive Stopper where
  | idle
  | stored
  | joining
  deriving DecidableEq

/-- The pool, the array it works on, and the caller of `stop()`.  A queued task is the
range `(low, high)` bound in the closure; every closure in this program runs
`parallelQuickSort` on the one shared array. -/
structure State where
  mem : Mem
  m_task_queue : List (Int × Int)
  m_work : Bool
  active_tasks : Nat
  m_threads : List Worker
  stopper : Stopper
  deriving DecidableEq

/-- `getActiveTasksCount()`. -/
def getActiveTasksCount (s : State) : Nat := s.active_tasks

/-- `start()` on a pool of `m_thread_count` threads, beside the array `arr`. -/
def start (m_thread_count : Nat) (arr : List Int) : State :=
  { mem := { cells := arr, trace := [], calls := [] }, m_task_queue := [], m_work := true,
    active_tasks := 0, m_threads := List.replicate m_thread_count Worker.loopHead,
    stopper := Stopper.idle }

/-- `notify_one()`: if some thread is blocked in `wait`, one of them, the one at position
`wake`, is woken; if none is blocked nothing happens. -/
def notifyOne (ws : List Worker) (wake : Nat) : Option (List Worker) :=
  if ws[wake]? = some Worker.blocked then some (ws.set wake Worker.woken)
  else if Worker.blocked ∈ ws then none
  else some ws

/-- `notify_all()`: every thread blocked in `wait` is woken. -/
def notifyAll (ws : List Worker) : List Worker :=
  ws.map fun w => if w = Worker.blocked then Worker.woken else w

/-- `pushTask(f, arr, low, high)`: under `m_locker`, count the task, append it to the queue,
notify one waiting thread.  Not enabled while another thread holds the lock. -/
def pushTask (s : State) (low high : Int) (wake : Nat) : Option State :=
  if Worker.preWait ∈ s.m_threads then none
  else (notifyOne s.m_threads wake).map fun ws =>
    { s with active_tasks := s.active_tasks + 1,
             m_task_queue := s.m_task_queue ++ [(low, high)],
             m_threads := ws }

/-- One step of the body of `parallelQuickSort(tpool, arr, low, high)` from the given
program point: the next program point and the state it leaves. -/
def parallelQuickSort (T : Int) (s : State) (wake : Nat) : Phase → Option (Phase × State)
  | Phase.entry low high =>
    if low ≥ high then some (Phase.ret, s)
    else (partition s.mem low high).map fun r =>
      (Phase.left low r.1 high, { s with mem := r.2 })
  | Phase.left low pi high =>
    if pi - low > T then
      (pushTask s low (pi - 1) wake).map fun s' => (Phase.right low pi high, s')
    else
      (quickSort (quickSortFuel low (pi - 1)) s.mem low (pi - 1)).map fun m =>
        (Phase.right low pi high, { s with mem := m })
  | Phase.right _ pi high =>
    if high - pi > T then
      (pushTask s (pi + 1) high wake).map fun s' => (Phase.ret, s')
    else
      (quickSort (quickSortFuel (pi + 1) high) s.mem (pi + 1) high).map fun m =>
        (Phase.ret, { s with mem := m })
  | Phase.ret => none

/-- Thread `i` moves to program point `w`. -/
def setThread (s : State) (i : Nat) (w : Worker) : State :=
  { s with m_threads := s.m_threads.set i w }

/-- One step of worker `i` in `threadFunc`. -/
def threadFunc (T : Int) (s : State) (i wake : Nat) : Option State :=
  match s.m_threads[i]? with
  | none => none
  | some Worker.loopHead =>
    if Worker.preWait ∈ s.m_threads then none
    else if s.m_work = false then some (setThread s i Worker.exited)
    else
      match s.m_task_queue with
      | [] => some (setThread s i Worker.preWait)
      | t :: q =>
        some (setThread { s with m_task_queue := q } i (Worker.running (Phase.entry t.1 t.2)))
  | some Worker.preWait => some (setThread s i Worker.blocked)
  | some Worker.blocked => none
  | some Worker.woken =>
    if Worker.preWait ∈ s.m_threads then none
    else
      match s.m_task_queue with
      | t :: q =>
        some (setThread { s with m_task_queue := q } i (Worker.running (Phase.entry t.1 t.2)))
      | [] =>
        if s.m_work = false then some (setThread s i Worker.loopHead)
        else some (setThread s i Worker.preWait)
  | some (Worker.running Phase.ret) =>
    some (setThread { s with active_tasks := decrement s.active_tasks } i Worker.loopHead)
  | some (Worker.running p) =>
    (parallelQuickSort T s wake p).map fun r => setThread r.2 i (Worker.running r.1)
  | some Worker.exited => none

/-- What can happen next: a `pushTask` from outside the pool (`main`), the two effects of
`stop()`, a step of worker `i`, a spurious wake-up of worker `i`. -/
inductive Action where
  | submit (low high : Int) (wake : Nat)
  | stopStore
  | stopNotify
  | thread (i wake : Nat)
  | spurious (i : Nat)
  deriving DecidableEq

/-- One transition of the system. -/
def step (T : Int) (s : State) : Action → Option State
  | Action.submit low high wake => pushTask s low high wake
  | Action.stopStore =>
    if s.stopper = Stopper.idle then some { s with m_work := false, stopper := Stopper.stored }
    else none
  | Action.stopNotify =>
    if s.stopper = Stopper.stored then
      some { s with m_threads := notifyAll s.m_threads, stopper := Stopper.joining }
    else none
  | Action.thread i wake => threadFunc T s i wake
  | Action.spurious i =>
    if s.m_threads[i]? = some Worker.blocked then some (setThread s i Worker.woken) else none

/-- A schedule: the transitions taken, in order. -/
def run (T : Int) : List Action → State → Option State
  | [], s => some s
  | a :: rest, s => (step T s a).bind (run T rest)

/-- Actions other than a `pushTask` from outside the pool. -/
def Action.internal : Action → Bool
  | Action.submit _ _ _ => false
  | _ => true

/-- States of the pool reachable after `start()`, with any submissions from outside. -/
def Reachable (T : Int) (s : State) : Prop :=
  ∃ (n : Nat) (arr : List Int) (acts : List Action), run T acts (start n arr) = some s

/-- States reachable when the only submission from outside is the top-level task over the
whole array `S`, as in `main`. -/
def SortReachable (T : Int) (n : Nat) (S : List Int) (s : State) : Prop :=
  ∃ (pre post : List Action) (wake : Nat),
    (∀ a ∈ pre, a.internal = true) ∧ (∀ a ∈ post, a.internal = true) ∧
    run T (pre ++ Action.submit 0 (S.length - 1) wake :: post) (start n S) = some s

/-! ## Notions used in the statements and the proofs -/

/-- The cells after exchanging positions `a` and `b`. -/
def swapCells (xs : List Int) (a b : Int) : List Int :=
  (xs.set a.toNat (rd xs b)).set b.toNat (rd xs a)

/-- What an operation confined to the index range `[low, high]` does to the memory: the
length is kept, the cells are permuted, cells outside the range keep their value and the
operation extends the access log by indices of the range only. -/
structure Within (low high : Int) (m m' : Mem) : Prop where
  len : m'.cells.length = m.cells.length
  perm : m'.cells.Perm m.cells
  frame : ∀ k : Int, k < low ∨ high < k → rd m'.cells k = rd m.cells k
  log : ∃ t, m'.trace = t ++ m.trace ∧ ∀ x ∈ t, low ≤ x ∧ x ≤ high

/-- Every `partition` invocation logged between `m` and `m'` has `low < high` and lies in
the given range. -/
def CallsIn (low high : Int) (m m' : Mem) : Prop :=
  ∃ cs, m'.calls = cs ++ m.calls ∧ ∀ c ∈ cs, low ≤ c.1 ∧ c.1 < c.2 ∧ c.2 ≤ high

/-- The cells of the index range `[low, high]`, in order. -/
def window (xs : List Int) (low high : Int) : List Int :=
  (xs.drop low.toNat).take (high - low + 1).toNat

/-- The range `[low, high]` is in ascending order. -/
def SortedOn (low high : Int) (xs : List Int) : Prop :=
  ∀ k1 k2 : Int, low ≤ k1 → k1 ≤ k2 → k2 ≤ high → rd xs k1 ≤ rd xs k2

/-- A worker that is executing a task. -/
def Worker.isRunning : Worker → Bool
  | Worker.running _ => true
  | _ => false

/-- Number of tasks being executed. -/
def busy : List Worker → Nat
  | [] => 0
  | w :: ws => (if w.isRunning then 1 else 0) + busy ws

/-- The counter equals the number of queued tasks plus the number of tasks in execution. -/
def CounterInv (s : State) : Prop :=
  s.active_tasks = s.m_task_queue.length + busy s.m_threads

/-- The cases of one step of worker `i`, read off `threadFunc`. -/
inductive ThreadMove (T : Int) (s : State) (i wake : Nat) : State → Prop where
  | idle (w w' : Worker) (hw : s.m_threads[i]? = some w) (h1 : w.isRunning = false)
      (h2 : w'.isRunning = false) : ThreadMove T s i wake (setThread s i w')
  | dequeue (w : Worker) (t : Int × Int) (q : List (Int × Int))
      (hw : s.m_threads[i]? = some w) (h1 : w.isRunning = false)
      (hq : s.m_task_queue = t :: q) :
      ThreadMove T s i wake
        (setThread { s with m_task_queue := q } i (Worker.running (Phase.entry t.1 t.2)))
  | skip (low high : Int) (hw : s.m_threads[i]? = some (Worker.running (Phase.entry low high)))
      (hge : low ≥ high) : ThreadMove T s i wake (setThread s i (Worker.running Phase.ret))
  | split (low high pi : Int) (m : Mem)
      (hw : s.m_threads[i]? = some (Worker.running (Phase.entry low high)))
      (hlt : low < high) (hp : partition s.mem low high = some (pi, m)) :
      ThreadMove T s i wake
        (setThread { s with mem := m } i (Worker.running (Phase.left low pi high)))
  | leftPush (low pi high : Int) (s1 : State)
      (hw : s.m_threads[i]? = some (Worker.running (Phase.left low pi high)))
      (hT : pi - low > T) (hp : pushTask s low (pi - 1) wake = some s1) :
      ThreadMove T s i wake (setThread s1 i (Worker.running (Phase.right low pi high)))
  | leftInline (low pi high : Int) (m : Mem)
      (hw : s.m_threads[i]? = some (Worker.running (Phase.left low pi high)))
      (hT : ¬ pi - low > T)
      (hq : quickSort (quickSortFuel low (pi - 1)) s.mem low (pi - 1) = some m) :
      ThreadMove T s i wake
        (setThread { s with mem := m } i (Worker.running (Phase.right low pi high)))
  | rightPush (low pi high : Int) (s1 : State)
      (hw : s.m_threads[i]? = some (Worker.running (Phase.right low pi high)))
      (hT : high - pi > T) (hp : pushTask s (pi + 1) high wake = some s1) :
      ThreadMove T s i wake (setThread s1 i (Worker.running Phase.ret))
  | rightInline (low pi high : Int) (m : Mem)
      (hw : s.m_threads[i]? = some (Worker.running (Phase.right low pi high)))
      (hT : ¬ high - pi > T)
      (hq : quickSort (quickSortFuel (pi + 1) high) s.mem (pi + 1) high = some m) :
      ThreadMove T s i wake (setThread { s with mem := m } i (Worker.running Phase.ret))
  | finish (hw : s.m_threads[i]? = some (Worker.running Phase.ret)) :
      ThreadMove T s i wake
        (setThread { s with active_tasks := decrement s.active_tasks } i Worker.loopHead)

/-- How one step changes the counter: a submission (`+1`, one more queued task), a
completion (`-1` from a positive value, one task fewer in execution), or no change. -/
def CounterDelta (s s' : State) : Prop :=
  (s'.active_tasks = s.active_tasks + 1 ∧
      s'.m_task_queue.length = s.m_task_queue.length + 1 ∧
      busy s'.m_threads = busy s.m_threads) ∨
  (0 < s.active_tasks ∧ s'.active_tasks = s.active_tasks - 1 ∧
      s'.m_task_queue = s.m_task_queue ∧ busy s'.m_threads + 1 = busy s.m_threads) ∨
  (s'.active_tasks = s.active_tasks ∧
      s'.m_task_queue.length + busy s'.m_threads = s.m_task_queue.length + busy s.m_threads)

/-- The index ranges a running task still has to handle. -/
def Phase.owned : Phase → List (Int × Int)
  | Phase.entry low high => [(low, high)]
  | Phase.left low pi high => [(low, pi - 1), (pi + 1, high)]
  | Phase.right _ pi high => [(pi + 1, high)]
  | Phase.ret => []

/-- The index ranges a worker still has to handle. -/
def Worker.owned : Worker → List (Int × Int)
  | Worker.running p => p.owned
  | _ => []

/-- The ranges owned by the running tasks. -/
def ownedBy : List Worker → List (Int × Int)
  | [] => []
  | w :: ws => w.owned ++ ownedBy ws

/-- The ranges of all outstanding work: queued tasks and what running tasks still own. -/
def pending (s : State) : List (Int × Int) :=
  s.m_task_queue ++ ownedBy s.m_threads

/-- Two inclusive index ranges have no index in common. -/
def RangesDisjoint (r1 r2 : Int × Int) : Prop :=
  ∀ k : Int, ¬ (r1.1 ≤ k ∧ k ≤ r1.2 ∧ r2.1 ≤ k ∧ k ≤ r2.2)

/-- The pivot index recorded in a program point lies in the range of the task. -/
def Phase.wf : Phase → Prop
  | Phase.left low pi high => low ≤ pi ∧ pi ≤ high
  | Phase.right low pi high => low ≤ pi ∧ pi ≤ high
  | _ => True

/-- Well-formedness of the program point of a worker. -/
def Worker.wf : Worker → Prop
  | Worker.running p => p.wf
  | _ => True

/-- The array `cells` relative to the outstanding ranges `P` of a sort of `S`: it is a
permutation of `S`, the ranges are in bounds and pairwise disjoint, and any two positions
that do not lie in one common outstanding range are already in order. -/
structure PendInv (S cells : List Int) (P : List (Int × Int)) : Prop where
  len : cells.length = S.length
  perm : cells.Perm S
  bounds : ∀ r ∈ P, 0 ≤ r.1 ∧ r.2 < S.length
  disj : P.Pairwise RangesDisjoint
  sorted : ∀ k1 k2 : Int, 0 ≤ k1 → k1 < k2 → k2 < S.length →
    (∀ r ∈ P, ¬ (r.1 ≤ k1 ∧ k2 ≤ r.2)) → rd cells k1 ≤ rd cells k2

/-- The invariant of a sort of `S` once the top-level task has been submitted. -/
structure SortInv (S : List Int) (s : State) : Prop where
  counter : CounterInv s
  pend : PendInv S s.mem.cells (pending s)
  wf : ∀ w ∈ s.m_threads, w.wf
  trace : ∀ x ∈ s.mem.trace, 0 ≤ x ∧ x < S.length
  calls : ∀ c ∈ s.mem.calls, 0 ≤ c.1 ∧ c.1 < c.2 ∧ c.2 < S.length

/-- Before the top-level task is submitted nothing is queued, nothing runs and the array is
untouched. -/
structure IdleInv (S : List Int) (s : State) : Prop where
  queue : s.m_task_queue = []
  active : s.active_tasks = 0
  mem : s.mem = { cells := S, trace := [], calls := [] }
  threads : ∀ w ∈ s.m_threads, w.isRunning = false

/-- Weight of a range in the termination measure. -/
def wt (r : Int × Int) : Nat := 8 * (r.2 - r.1 + 1).toNat + 3

/-- Total weight of the queued tasks. -/
def queueWt : List (Int × Int) → Nat
  | [] => 0
  | t :: q => wt t + queueWt q

/-- Weight of the work a running task has left. -/
def Phase.mu : Phase → Nat
  | Phase.entry low high => wt (low, high) - 1
  | Phase.left low pi high => wt (low, pi - 1) + wt (pi + 1, high) + 3
  | Phase.right _ pi high => wt (pi + 1, high) + 2
  | Phase.ret => 1

/-- Weight of the work a worker has left. -/
def Worker.mu : Worker → Nat
  | Worker.running p => p.mu
  | _ => 0

/-- Termination measure of the schedule in which worker 0 does all the work. -/
def mu (s : State) : Nat :=
  queueWt s.m_task_queue + (match s.m_threads with
    | w :: _ => w.mu
    | [] => 0)

/-- Worker 0 is at the loop head or runs a task, every other worker is at the loop head,
and the pool has not been stopped. -/
structure Solo (s : State) (w0 : Worker) (rest : List Worker) : Prop where
  threads : s.m_threads = w0 :: rest
  rest : ∀ w ∈ rest, w = Worker.loopHead
  head : w0 = Worker.loopHead ∨ ∃ p, w0 = Worker.running p
  work : s.m_work = true

/-- A worker about to handle the left sub-range `[0, 0]` of the range `[0, 2]`. -/
def demoLeft : State :=
  { mem := { cells := [1, 2, 3], trace := [], calls := [] }, m_task_queue := [],
    m_work := true, active_tasks := 1,
    m_threads := [Worker.running (Phase.left 0 1 2)], stopper := Stopper.idle }

/-- The state after `demoLeft` when the threshold is `0`: the sub-range was submitted. -/
def demoRight : State :=
  { mem := { cells := [1, 2, 3], trace := [], calls := [] }, m_task_queue := [(0, 0)],
    m_work := true, active_tasks := 2,
    m_threads := [Worker.running (Phase.right 0 1 2)], stopper := Stopper.idle }

/-- The pool after the top-level task over `[2, 1]` was submitted and dequeued. -/
def demoRunning : State :=
  { mem := { cells := [2, 1], trace := [], calls := [] }, m_task_queue := [],
    m_work := true, active_tasks := 1,
    m_threads := [Worker.running (Phase.entry 0 1)], stopper := Stopper.idle }

/-- The schedule of the example: the top-level submission, then 24 steps of the one
worker. -/
def demoSchedule : List Action :=
  Action.submit 0 5 0 :: List.replicate 24 (Action.thread 0 0)

/-- The pool right after the only worker has partitioned `[1, 3, 2]` into `[1, 2, 3]` with
pivot index `1`, with threshold `0`. -/
def demoSplit : State :=
  { mem := { cells := [1, 2, 3],
             trace := [2, 1, 2, 1, 1, 0, 0, 0, 0, 0, 2], calls := [(0, 2)] },
    m_task_queue := [], m_work := true, active_tasks := 1,
    m_threads := [Worker.running (Phase.left 0 1 2)], stopper := Stopper.idle }

/-- The state after `demoSplit` once both sub-ranges have been submitted. -/
def demoFanOut : State :=
  { mem := { cells := [1, 2, 3],
             trace := [2, 1, 2, 1, 1, 0, 0, 0, 0, 0, 2], calls := [(0, 2)] },
    m_task_queue := [(0, 0), (2, 2)], m_work := true, active_tasks := 3,
    m_threads := [Worker.running Phase.ret], stopper := Stopper.idle }

/-- The pool of one worker after the sort of `[2, 1]` has completed: the counter is back at
zero and the worker is at the loop head. -/
def demoSorted : State :=
  { mem := { cells := [1, 2], trace := [1, 0, 1, 0, 0, 1], calls := [(0, 1)] },
    m_task_queue := [], m_work := true, active_tasks := 0,
    m_threads := [Worker.loopHead], stopper := Stopper.idle }

/-- The state in which `stop()` hangs: the flag is cleared, `notify_all` has been issued,
the caller is joining, and the worker is blocked in `wait`. -/
def demoDeadlock : State :=
  { mem := { cells := [1, 2], trace := [1, 0, 1, 0, 0, 1], calls := [(0, 1)] },
    m_task_queue := [], m_work := false, active_tasks := 0,
    m_threads := [Worker.blocked], stopper := Stopper.joining }

/-- An array of `T + 2` equal elements: its right sub-range has length `T + 1`. -/
def flat (T : Int) : List Int := List.replicate (T.toNat + 2) 0

/-- The pool after `stop()` cleared the flag while the top-level task over `flat T` was
running: the task has submitted its right half and finished, the worker is at the loop
head. -/
def stranded (T : Int) (m : Mem) : State :=
  { mem := m, m_task_queue := [(0 + 1, T + 1)], m_work := false, active_tasks := 1,
    m_threads := [Worker.loopHead], stopper := Stopper.stored }

/-- The pool is stopped, every worker is at the loop head or has exited, and the queue
still begins with the tasks `q0`. -/
structure Stuck (q0 : List (Int × Int)) (s : State) : Prop where
  work : s.m_work = false
  threads : ∀ w ∈ s.m_threads, w = Worker.loopHead ∨ w = Worker.exited
  queue : ∃ extra, s.m_task_queue = q0 ++ extra
  counter : CounterInv s

/-! ## Sequential part: auxiliary facts -/

theorem rd_eq_getElem (xs : List Int) (k : Int) (h0 : 0 ≤ k) (h : k.toNat < xs.length) :
    rd xs k = xs[k.toNat] := by
  simp [rd, List.getD_eq_getElem?_getD, List.getElem?_eq_getElem h]
  omega

theorem rd_natCast (xs : List Int) (i : Nat) (h : i < xs.length) : rd xs (i : Int) = xs[i] := by
  rw [rd_eq_getElem xs i (by omega) (by simpa using h)]
  simp

theorem rd_set (xs : List Int) (a k : Int) (v : Int) (ha0 : 0 ≤ a) (hk0 : 0 ≤ k) :
    rd (xs.set a.toNat v) k = if k = a then (if a < xs.length then v else rd xs k) else rd xs k := by
  have e : (a.toNat = k.toNat) ↔ k = a := by omega
  simp only [rd, List.getD_eq_getElem?_getD, List.getElem?_set, e]
  have hk : ¬ k < 0 := by omega
  simp only [hk, if_false]
  by_cases h : k = a
  · subst h
    by_cases h2 : k < xs.length
    · have : k.toNat < xs.length := by omega
      simp [h2, this]
    · have : xs.length ≤ k.toNat := by omega
      have hn : ¬ k.toNat < xs.length := by omega
      simp [h2, hn, List.getElem?_eq_none this]
  · simp [h]

theorem length_swapCells (xs : List Int) (a b : Int) : (swapCells xs a b).length = xs.length := by
  simp [swapCells]

theorem rd_swapCells (xs : List Int) (a b k : Int) (ha0 : 0 ≤ a) (ha : a < xs.length)
    (hb0 : 0 ≤ b) (hb : b < xs.length) (hk0 : 0 ≤ k) :
    rd (swapCells xs a b) k = if k = b then rd xs a else if k = a then rd xs b else rd xs k := by
  unfold swapCells
  rw [rd_set _ b k _ hb0 hk0, rd_set _ a k _ ha0 hk0]
  simp only [List.length_set, hb, ha, if_true]

theorem swapCells_perm (xs : List Int) (a b : Int) (ha0 : 0 ≤ a) (ha : a < xs.length)
    (hb0 : 0 ≤ b) (hb : b < xs.length) : (swapCells xs a b).Perm xs := by
  have hA : a.toNat < xs.length := by omega
  have hB : b.toNat < xs.length := by omega
  rw [List.perm_iff_count]
  intro v
  unfold swapCells
  rw [List.count_set _ _ _ _ (by simpa using hB), List.count_set _ _ _ _ hA]
  rw [rd_eq_getElem xs a ha0 hA, rd_eq_getElem xs b hb0 hB]
  simp only [List.getElem_set, beq_iff_eq]
  have h1 : 0 < List.count v xs ∨ xs[a.toNat] ≠ v := by
    by_cases h : xs[a.toNat] = v
    · left; rw [← h]; exact List.count_pos_iff.mpr (List.getElem_mem _)
    · right; exact h
  have h2 : 0 < List.count v xs ∨ xs[b.toNat] ≠ v := by
    by_cases h : xs[b.toNat] = v
    · left; rw [← h]; exact List.count_pos_iff.mpr (List.getElem_mem _)
    · right; exact h
  by_cases e1 : xs[a.toNat] = v <;> by_cases e2 : xs[b.toNat] = v <;>
    by_cases e3 : a.toNat = b.toNat <;> simp [e1, e2, e3] <;> omega

theorem swap_eq (m : Mem) (a b : Int) (ha0 : 0 ≤ a) (ha : a < m.cells.length)
    (hb0 : 0 ≤ b) (hb : b < m.cells.length) :
    swap m a b = some { cells := swapCells m.cells a b, trace := b :: a :: b :: a :: m.trace,
                        calls := m.calls } := by
  simp [swap, Mem.load, Mem.store, ha0, ha, hb0, hb, swapCells, bind]

theorem Within.refl (low high : Int) (m : Mem) : Within low high m m :=
  ⟨rfl, List.Perm.refl _, fun _ _ => rfl, ⟨[], rfl, fun _ h => absurd h (List.not_mem_nil _)⟩⟩

theorem Within.trace {low high : Int} {m m' : Mem} (h : Within low high m m') :
    ∀ x ∈ m'.trace, x ∈ m.trace ∨ (low ≤ x ∧ x ≤ high) := by
  obtain ⟨t, e, ht⟩ := h.log
  intro x hx
  rw [e] at hx
  rcases List.mem_append.mp hx with h1 | h1
  · exact Or.inr (ht x h1)
  · exact Or.inl h1

theorem Within.trans {low high : Int} {m1 m2 m3 : Mem} (h12 : Within low high m1 m2)
    (h23 : Within low high m2 m3) : Within low high m1 m3 where
  len := h23.len.trans h12.len
  perm := h23.perm.trans h12.perm
  frame := fun k hk => (h23.frame k hk).trans (h12.frame k hk)
  log := by
    obtain ⟨t1, e1, ht1⟩ := h12.log
    obtain ⟨t2, e2, ht2⟩ := h23.log
    refine ⟨t2 ++ t1, by rw [e2, e1, List.append_assoc], fun x hx => ?_⟩
    rcases List.mem_append.mp hx with h | h
    · exact ht2 x h
    · exact ht1 x h

theorem Within.mono {low high low' high' : Int} {m m' : Mem} (h : Within low high m m')
    (hl : low' ≤ low) (hh : high ≤ high') : Within low' high' m m' where
  len := h.len
  perm := h.perm
  frame := fun k hk => h.frame k (by omega)
  log := by
    obtain ⟨t, e, ht⟩ := h.log
    exact ⟨t, e, fun x hx => by have := ht x hx; omega⟩

theorem CallsIn.id (low high : Int) (m : Mem) : CallsIn low high m m :=
  ⟨[], rfl, fun _ h => absurd h (List.not_mem_nil _)⟩

theorem CallsIn.comp {low high : Int} {m1 m2 m3 : Mem} (h12 : CallsIn low high m1 m2)
    (h23 : CallsIn low high m2 m3) : CallsIn low high m1 m3 := by
  obtain ⟨c1, e1, hc1⟩ := h12
  obtain ⟨c2, e2, hc2⟩ := h23
  refine ⟨c2 ++ c1, by rw [e2, e1, List.append_assoc], fun c hc => ?_⟩
  rcases List.mem_append.mp hc with h | h
  · exact hc2 c h
  · exact hc1 c h

theorem CallsIn.widen {low high low' high' : Int} {m m' : Mem} (h : CallsIn low high m m')
    (hl : low' ≤ low) (hh : high ≤ high') : CallsIn low' high' m m' := by
  obtain ⟨cs, e, hcs⟩ := h
  exact ⟨cs, e, fun c hc => by have := hcs c hc; omega⟩

theorem CallsIn.old_or_new {low high : Int} {m m' : Mem} (h : CallsIn low high m m') :
    ∀ c ∈ m'.calls, c ∈ m.calls ∨ (low ≤ c.1 ∧ c.1 < c.2 ∧ c.2 ≤ high) := by
  obtain ⟨cs, e, hcs⟩ := h
  intro c hc
  rw [e] at hc
  rcases List.mem_append.mp hc with h1 | h1
  · exact Or.inr (hcs c h1)
  · exact Or.inl h1

theorem rd_neg (xs : List Int) (k : Int) (h : k < 0) : rd xs k = 0 := by
  simp [rd, h]

theorem load_eq (m : Mem) (i : Int) (h0 : 0 ≤ i) (h : i < m.cells.length) :
    m.load i = some (rd m.cells i, { m with trace := i :: m.trace }) := by
  simp [Mem.load, h0, h]

theorem within_load (m : Mem) (i low high : Int) (hl : low ≤ i) (hh : i ≤ high) :
    Within low high m { m with trace := i :: m.trace } where
  len := rfl
  perm := List.Perm.refl _
  frame := fun _ _ => rfl
  log := ⟨[i], rfl, fun x hx => by
    rw [List.mem_singleton.mp hx]; exact ⟨hl, hh⟩⟩

theorem within_swap (m : Mem) (a b low high : Int) (ha0 : 0 ≤ a) (ha : a < m.cells.length)
    (hb0 : 0 ≤ b) (hb : b < m.cells.length) (hla : low ≤ a) (hha : a ≤ high)
    (hlb : low ≤ b) (hhb : b ≤ high) :
    Within low high m { cells := swapCells m.cells a b, trace := b :: a :: b :: a :: m.trace,
                        calls := m.calls } where
  len := length_swapCells _ _ _
  perm := swapCells_perm _ _ _ ha0 ha hb0 hb
  frame := fun k hk => by
    by_cases hk0 : 0 ≤ k
    · show rd (swapCells m.cells a b) k = rd m.cells k
      rw [rd_swapCells _ _ _ _ ha0 ha hb0 hb hk0]
      have h1 : k ≠ b := by omega
      have h2 : k ≠ a := by omega
      simp [h1, h2]
    · show rd (swapCells m.cells a b) k = rd m.cells k
      rw [rd_neg _ _ (by omega), rd_neg _ _ (by omega)]
  log := ⟨[b, a, b, a], rfl, fun x hx => by
    simp only [List.mem_cons, List.mem_singleton, List.not_mem_nil, or_false] at hx
    rcases hx with h | h | h | h <;> subst h <;> exact ⟨by assumption, by assumption⟩⟩

/-- Invariant of the partition loop.  On entry the cells in `[low, i]` are below the pivot
and the cells in `(i, j)` are not; the loop succeeds, stays inside `[low, high - 1]` and
establishes the same for `j = high`. -/
theorem partitionLoop_spec (pivot : Int) (low high : Int) (h0 : 0 ≤ low) :
    ∀ (n : Nat) (j i : Int) (m : Mem), high < m.cells.length → low - 1 ≤ i → i < j →
      j + n = high →
      (∀ k, low ≤ k → k ≤ i → rd m.cells k < pivot) →
      (∀ k, i < k → k < j → pivot ≤ rd m.cells k) →
      ∃ i' m', partitionLoop pivot n j i m = some (i', m') ∧ Within low (high - 1) m m' ∧
        m'.calls = m.calls ∧ low - 1 ≤ i' ∧ i' < high ∧
        (∀ k, low ≤ k → k ≤ i' → rd m'.cells k < pivot) ∧
        (∀ k, i' < k → k < high → pivot ≤ rd m'.cells k) := by
  intro n
  induction n with
  | zero =>
    intro j i m _ hi hij hj hlt hge
    refine ⟨i, m, rfl, Within.refl _ _ _, rfl, hi, by omega, hlt, ?_⟩
    intro k hk1 hk2
    exact hge k hk1 (by omega)
  | succ n ih =>
    intro j i m hlen hi hij hj hlt hge
    have hj0 : 0 ≤ j := by omega
    have hjl : j < m.cells.length := by omega
    simp only [partitionLoop, load_eq m j hj0 hjl, Option.bind_eq_bind, Option.some_bind]
    by_cases hv : rd m.cells j < pivot
    · simp only [hv, if_true]
      have hs := swap_eq { m with trace := j :: m.trace } (i + 1) j (by omega)
        (by show i + 1 < m.cells.length; omega) hj0 hjl
      rw [hs]
      simp only [Option.some_bind]
      have hw1 := within_load m j low (high - 1) (by omega) (by omega)
      have hw2 := within_swap { m with trace := j :: m.trace } (i + 1) j low (high - 1)
        (by omega) (by show i + 1 < m.cells.length; omega) hj0 hjl (by omega) (by omega)
        (by omega) (by omega)
      have key : ∀ k, 0 ≤ k → rd (swapCells m.cells (i + 1) j) k =
          if k = j then rd m.cells (i + 1) else if k = i + 1 then rd m.cells j
          else rd m.cells k := fun k hk =>
        rd_swapCells _ _ _ _ (by omega) (by omega) hj0 hjl hk
      obtain ⟨i', m', he, hw, hc, hb1, hb2, hlt', hge'⟩ :=
        ih (j + 1) (i + 1)
          { cells := swapCells m.cells (i + 1) j,
            trace := j :: (i + 1) :: j :: (i + 1) :: j :: m.trace, calls := m.calls }
          (by simpa [length_swapCells] using hlen) (by omega) (by omega)
          (by push_cast at hj ⊢; omega)
          (by
            intro k hk1 hk2
            show rd (swapCells m.cells (i + 1) j) k < pivot
            rw [key k (by omega)]
            by_cases e1 : k = j
            · have e3 : j = i + 1 := by omega
              rw [if_pos e1, ← e3]
              exact hv
            · by_cases e2 : k = i + 1
              · rw [if_neg e1, if_pos e2]
                exact hv
              · rw [if_neg e1, if_neg e2]
                exact hlt k hk1 (by omega))
          (by
            intro k hk1 hk2
            show pivot ≤ rd (swapCells m.cells (i + 1) j) k
            rw [key k (by omega)]
            by_cases e1 : k = j
            · rw [if_pos e1]
              exact hge (i + 1) (by omega) (by omega)
            · have e2 : k ≠ i + 1 := by omega
              rw [if_neg e1, if_neg e2]
              exact hge k (by omega) (by omega))
      exact ⟨i', m', he, (hw1.trans hw2).trans hw, hc, by omega, hb2, hlt', hge'⟩
    · simp only [hv, if_false]
      have hw1 := within_load m j low (high - 1) (by omega) (by omega)
      obtain ⟨i', m', he, hw, hc, hb1, hb2, hlt', hge'⟩ :=
        ih (j + 1) i { m with trace := j :: m.trace } hlen hi (by omega)
          (by push_cast at hj ⊢; omega) hlt
          (by
            intro k hk1 hk2
            by_cases e : k = j
            · subst e; exact not_lt.mp hv
            · exact hge k hk1 (by omega))
      exact ⟨i', m', he, hw1.trans hw, hc, hb1, hb2, hlt', hge'⟩

/-- Specification of `partition` on an in-bounds range with `low ≤ high`. -/
theorem partition_spec (m : Mem) (low high : Int) (h0 : 0 ≤ low) (hlh : low ≤ high)
    (hh : high < m.cells.length) :
    ∃ p m', partition m low high = some (p, m') ∧ Within low high m m' ∧
      m'.calls = (low, high) :: m.calls ∧ low ≤ p ∧ p ≤ high ∧
      rd m'.cells p = rd m.cells high ∧
      (∀ k, low ≤ k → k < p → rd m'.cells k < rd m.cells high) ∧
      (∀ k, p ≤ k → k ≤ high → rd m.cells high ≤ rd m'.cells k) := by
  have hh0 : 0 ≤ high := by omega
  let m0 : Mem := { cells := m.cells, trace := high :: m.trace, calls := (low, high) :: m.calls }
  obtain ⟨i, m1, he, hw, hc, hb1, hb2, hlt, hge⟩ :=
    partitionLoop_spec (rd m.cells high) low high h0 (high - low).toNat low (low - 1) m0 hh
      (by omega) (by omega) (by omega) (by intro k h1 h2; omega) (by intro k h1 h2; omega)
  have hlen1 : m1.cells.length = m.cells.length := hw.len
  have hpiv : rd m1.cells high = rd m.cells high := hw.frame high (Or.inr (by omega))
  have hs := swap_eq m1 (i + 1) high (by omega) (by omega) hh0 (by omega)
  have hw2 := within_swap m1 (i + 1) high low high (by omega) (by omega) hh0 (by omega)
    (by omega) (by omega) (by omega) (by omega)
  have key : ∀ k, 0 ≤ k → rd (swapCells m1.cells (i + 1) high) k =
      if k = high then rd m1.cells (i + 1) else if k = i + 1 then rd m1.cells high
      else rd m1.cells k := fun k hk =>
    rd_swapCells _ _ _ _ (by omega) (by omega) hh0 (by omega) hk
  refine ⟨i + 1, { cells := swapCells m1.cells (i + 1) high,
                   trace := high :: (i + 1) :: high :: (i + 1) :: m1.trace,
                   calls := m1.calls }, ?_, ?_, ?_, by omega, by omega, ?_, ?_, ?_⟩
  · have hl := load_eq { cells := m.cells, trace := m.trace, calls := (low, high) :: m.calls }
      high hh0 hh
    simp only [partition, hl, Option.bind_eq_bind, Option.some_bind]
    show (partitionLoop (rd m.cells high) (high - low).toNat low (low - 1) m0).bind _ = _
    rw [he]
    simp only [Option.some_bind, hs]
  · have hw0 : Within low high m m0 :=
      ⟨rfl, List.Perm.refl _, fun _ _ => rfl, ⟨[high], rfl, fun x hx => by
        rw [List.mem_singleton.mp hx]; exact ⟨hlh, le_refl _⟩⟩⟩
    exact (hw0.trans (hw.mono (le_refl _) (by omega))).trans hw2
  · show m1.calls = _
    rw [hc]
  · show rd (swapCells m1.cells (i + 1) high) (i + 1) = _
    rw [key _ (by omega)]
    by_cases e : i + 1 = high
    · rw [if_pos e, e, hpiv]
    · rw [if_neg e, if_pos rfl, hpiv]
  · intro k hk1 hk2
    show rd (swapCells m1.cells (i + 1) high) k < _
    rw [key _ (by omega), if_neg (by omega), if_neg (by omega)]
    exact hlt k hk1 (by omega)
  · intro k hk1 hk2
    show _ ≤ rd (swapCells m1.cells (i + 1) high) k
    rw [key _ (by omega)]
    by_cases e1 : k = high
    · rw [if_pos e1]
      by_cases e2 : i + 1 = high
      · rw [e2, hpiv]
      · exact hge (i + 1) (by omega) (by omega)
    · rw [if_neg e1]
      by_cases e2 : k = i + 1
      · rw [if_pos e2, hpiv]
      · rw [if_neg e2]
        exact hge k (by omega) (by omega)

theorem getElem?_eq_of_rd (xs ys : List Int) (hlen : xs.length = ys.length) (n : Nat)
    (h : rd xs (n : Int) = rd ys (n : Int)) : xs[n]? = ys[n]? := by
  by_cases hn : n < xs.length
  · have hn' : n < ys.length := by omega
    rw [rd_natCast xs n hn, rd_natCast ys n hn'] at h
    rw [List.getElem?_eq_getElem hn, List.getElem?_eq_getElem hn', h]
  · rw [List.getElem?_eq_none (by omega), List.getElem?_eq_none (by omega)]

theorem window_getElem (xs : List Int) (low high : Int) (h0 : 0 ≤ low)
    (hh : high < xs.length) (n : Nat) (hn : n < (window xs low high).length) :
    (window xs low high)[n] = rd xs (low + n) := by
  have hlen : (window xs low high).length = (high - low + 1).toNat := by
    simp only [window, List.length_take, List.length_drop]
    omega
  have h1 : low.toNat + n < xs.length := by omega
  have h2 : (low + (n : Int)).toNat = low.toNat + n := by omega
  rw [rd_eq_getElem xs (low + n) (by omega) (by omega)]
  simp only [window, List.getElem_take, List.getElem_drop, h2]

theorem length_window (xs : List Int) (low high : Int) (h0 : 0 ≤ low)
    (hh : high < xs.length) : (window xs low high).length = (high - low + 1).toNat := by
  simp only [window, List.length_take, List.length_drop]
  omega

/-- An operation confined to `[low, high]` permutes the cells of that range. -/
theorem Within.window_perm {low high : Int} {m m' : Mem} (h : Within low high m m')
    (h0 : 0 ≤ low) : (window m'.cells low high).Perm (window m.cells low high) := by
  have e1 : m'.cells.take low.toNat = m.cells.take low.toNat := by
    apply List.ext_getElem?
    intro n
    simp only [List.getElem?_take]
    by_cases hn : n < low.toNat
    · simp only [hn, if_true]
      exact getElem?_eq_of_rd _ _ h.len n (h.frame n (Or.inl (by omega)))
    · simp [hn]
  have e2 : (m'.cells.drop low.toNat).drop (high - low + 1).toNat =
      (m.cells.drop low.toNat).drop (high - low + 1).toNat := by
    apply List.ext_getElem?
    intro n
    simp only [List.drop_drop, List.getElem?_drop]
    exact getElem?_eq_of_rd _ _ h.len _ (h.frame _ (Or.inr (by push_cast; omega)))
  have d : ∀ xs : List Int, xs = xs.take low.toNat ++ (window xs low high ++
      (xs.drop low.toNat).drop (high - low + 1).toNat) := by
    intro xs
    simp only [window, List.take_append_drop]
  have hp := h.perm
  rw [d m'.cells, d m.cells, e1, e2] at hp
  exact (List.perm_append_right_iff _).mp ((List.perm_append_left_iff _).mp hp)

/-- Every value found in `[low, high]` afterwards was in `[low, high]` before. -/
theorem Within.mem {low high : Int} {m m' : Mem} (h : Within low high m m') (h0 : 0 ≤ low)
    (hh : high < m.cells.length) (k : Int) (hk1 : low ≤ k) (hk2 : k ≤ high) :
    ∃ k', low ≤ k' ∧ k' ≤ high ∧ rd m'.cells k = rd m.cells k' := by
  have hh' : high < m'.cells.length := by rw [h.len]; exact hh
  have hl' := length_window m'.cells low high h0 hh'
  have hl := length_window m.cells low high h0 hh
  have hn : (k - low).toNat < (window m'.cells low high).length := by omega
  have e := window_getElem m'.cells low high h0 hh' (k - low).toNat hn
  have e' : low + ((k - low).toNat : Int) = k := by omega
  rw [e'] at e
  have hmem : rd m'.cells k ∈ window m.cells low high := by
    rw [← e]
    exact ((h.window_perm h0).mem_iff).mp (List.getElem_mem hn)
  obtain ⟨n, hn2, hn3⟩ := List.mem_iff_getElem.mp hmem
  refine ⟨low + n, by omega, by omega, ?_⟩
  rw [← hn3, window_getElem m.cells low high h0 hh n hn2]

theorem sorted_window_of_sortedOn (xs : List Int) (low high : Int) (h0 : 0 ≤ low)
    (hh : high < xs.length) (h : SortedOn low high xs) :
    List.Sorted (· ≤ ·) (window xs low high) := by
  have hl := length_window xs low high h0 hh
  show List.Pairwise (· ≤ ·) (window xs low high)
  rw [List.pairwise_iff_getElem]
  intro i j hi hj hij
  rw [window_getElem xs low high h0 hh i hi, window_getElem xs low high h0 hh j hj]
  exact h _ _ (by omega) (by omega) (by omega)

/-- Specification of `quickSort`: with a budget above the length of the range it returns,
stays inside the range, and leaves the range sorted. -/
theorem quickSort_spec : ∀ (fuel : Nat) (m : Mem) (low high : Int), 0 ≤ low →
    high < m.cells.length → (high - low + 1).toNat < fuel →
    ∃ m', quickSort fuel m low high = some m' ∧ Within low high m m' ∧
      CallsIn low high m m' ∧ SortedOn low high m'.cells := by
  intro fuel
  induction fuel with
  | zero => intro m low high _ _ hf; omega
  | succ fuel ih =>
    intro m low high h0 hh hf
    by_cases hge : low ≥ high
    · refine ⟨m, by simp [quickSort, hge], Within.refl _ _ _, CallsIn.id _ _ _, ?_⟩
      intro k1 k2 a b c
      have : k1 = k2 := by omega
      rw [this]
    · have hlt : low < high := by omega
      obtain ⟨p, m1, hp, hw1, hc1, hp1, hp2, hpv, hlo, hhi⟩ :=
        partition_spec m low high h0 (by omega) hh
      have hlen1 := hw1.len
      obtain ⟨m2, hq2, hw2, hc2, hs2⟩ :=
        ih m1 low (p - 1) h0 (by omega) (by omega)
      have hlen2 := hw2.len
      obtain ⟨m3, hq3, hw3, hc3, hs3⟩ :=
        ih m2 (p + 1) high (by omega) (by omega) (by omega)
      refine ⟨m3, ?_, ?_, ?_, ?_⟩
      · simp only [quickSort, hge, if_false, hp, Option.bind_eq_bind, Option.some_bind, hq2,
          hq3]
      · exact (hw1.trans (hw2.mono (le_refl _) (by omega))).trans
          (hw3.mono (by omega) (le_refl _))
      · have hc1' : CallsIn low high m m1 := ⟨[(low, high)], hc1, fun c hc => by
          rw [List.mem_singleton.mp hc]; exact ⟨le_refl _, hlt, le_refl _⟩⟩
        exact (hc1'.comp (hc2.widen (le_refl _) (by omega))).comp
          (hc3.widen (by omega) (le_refl _))
      · -- values of the three parts after both recursive calls
        have left_lt : ∀ k, low ≤ k → k < p → rd m3.cells k < rd m.cells high := by
          intro k hk1 hk2
          rw [hw3.frame k (Or.inl (by omega))]
          obtain ⟨k', a, b, e⟩ := hw2.mem h0 (by omega) k hk1 (by omega)
          rw [e]
          exact hlo k' a (by omega)
        have mid : rd m3.cells p = rd m.cells high := by
          rw [hw3.frame p (Or.inl (by omega)), hw2.frame p (Or.inr (by omega)), hpv]
        have right_ge : ∀ k, p < k → k ≤ high → rd m.cells high ≤ rd m3.cells k := by
          intro k hk1 hk2
          obtain ⟨k', a, b, e⟩ := hw3.mem (by omega) (by omega) k (by omega) hk2
          rw [e, hw2.frame k' (Or.inr (by omega))]
          exact hhi k' (by omega) b
        have left_sorted : SortedOn low (p - 1) m3.cells := by
          intro k1 k2 a b c
          rw [hw3.frame k1 (Or.inl (by omega)), hw3.frame k2 (Or.inl (by omega))]
          exact hs2 k1 k2 a b c
        intro k1 k2 a b c
        by_cases c1 : k2 < p
        · exact left_sorted k1 k2 a b (by omega)
        · by_cases c2 : p < k1
          · exact hs3 k1 k2 (by omega) b c
          · -- k1 ≤ p ≤ k2
            have hk1 : rd m3.cells k1 ≤ rd m.cells high := by
              by_cases e : k1 = p
              · rw [e, mid]
              · exact le_of_lt (left_lt k1 a (by omega))
            have hk2 : rd m.cells high ≤ rd m3.cells k2 := by
              by_cases e : k2 = p
              · rw [e, mid]
              · exact right_ge k2 (by omega) c
            exact le_trans hk1 hk2

/-! ## The outstanding-task counter -/

theorem busy_set : ∀ (ws : List Worker) (i : Nat) (w w' : Worker), ws[i]? = some w →
    busy (ws.set i w') + (if w.isRunning then 1 else 0) =
      busy ws + (if w'.isRunning then 1 else 0)
  | [], i, w, w', h => by simp at h
  | v :: ws, 0, w, w', h => by
    simp only [List.getElem?_cons_zero, Option.some.injEq] at h
    subst h
    simp only [List.set_cons_zero, busy]
    omega
  | v :: ws, i + 1, w, w', h => by
    simp only [List.getElem?_cons_succ] at h
    have := busy_set ws i w w' h
    simp only [List.set_cons_succ, busy]
    omega

theorem busy_set_idle (ws : List Worker) (i : Nat) (w w' : Worker) (h : ws[i]? = some w)
    (hw : w.isRunning = false) (hw' : w'.isRunning = false) : busy (ws.set i w') = busy ws := by
  have := busy_set ws i w w' h
  simp only [hw, hw'] at this
  simpa using this

theorem busy_notifyAll : ∀ ws : List Worker, busy (notifyAll ws) = busy ws
  | [] => rfl
  | w :: ws => by
    have ih := busy_notifyAll ws
    unfold notifyAll at ih ⊢
    simp only [List.map_cons, busy, ih]
    by_cases h : w = Worker.blocked
    · subst h; rfl
    · simp [h]

theorem busy_notifyOne (ws ws' : List Worker) (wake : Nat) (h : notifyOne ws wake = some ws') :
    busy ws' = busy ws := by
  unfold notifyOne at h
  split at h
  · next hb =>
    simp only [Option.some.injEq] at h
    subst h
    exact busy_set_idle ws wake _ _ hb rfl rfl
  · split at h
    · simp at h
    · simp only [Option.some.injEq] at h
      subst h; rfl

theorem busy_pos_of_running (ws : List Worker) (i : Nat) (p : Phase)
    (h : ws[i]? = some (Worker.running p)) : 0 < busy ws := by
  have := busy_set ws i (Worker.running p) Worker.loopHead h
  simp only [Worker.isRunning] at this
  simp at this
  omega

theorem pushTask_counter (s s' : State) (low high : Int) (wake : Nat)
    (h : pushTask s low high wake = some s') :
    s'.active_tasks = s.active_tasks + 1 ∧
      s'.m_task_queue = s.m_task_queue ++ [(low, high)] ∧
      busy s'.m_threads = busy s.m_threads ∧ s'.mem = s.mem := by
  unfold pushTask at h
  split at h
  · simp at h
  · simp only [Option.map_eq_some'] at h
    obtain ⟨ws, hn, rfl⟩ := h
    exact ⟨rfl, rfl, busy_notifyOne _ _ _ hn, rfl⟩

theorem threadFunc_move (T : Int) (s s' : State) (i wake : Nat)
    (h : threadFunc T s i wake = some s') : ThreadMove T s i wake s' := by
  unfold threadFunc at h
  split at h
  · simp at h
  · next hw =>
    split at h
    · simp at h
    · split at h
      · simp only [Option.some.injEq] at h; subst h
        exact ThreadMove.idle _ _ hw rfl rfl
      · split at h
        · simp only [Option.some.injEq] at h; subst h
          exact ThreadMove.idle _ _ hw rfl rfl
        · next t q hq =>
          simp only [Option.some.injEq] at h; subst h
          exact ThreadMove.dequeue _ t q hw rfl hq
  · next hw =>
    simp only [Option.some.injEq] at h; subst h
    exact ThreadMove.idle _ _ hw rfl rfl
  · simp at h
  · next hw =>
    split at h
    · simp at h
    · split at h
      · next t q hq =>
        simp only [Option.some.injEq] at h; subst h
        exact ThreadMove.dequeue _ t q hw rfl hq
      · split at h
        · simp only [Option.some.injEq] at h; subst h
          exact ThreadMove.idle _ _ hw rfl rfl
        · simp only [Option.some.injEq] at h; subst h
          exact ThreadMove.idle _ _ hw rfl rfl
  · next hw =>
    simp only [Option.some.injEq] at h; subst h
    exact ThreadMove.finish hw
  · next p hp hw =>
    simp only [Option.map_eq_some'] at h
    obtain ⟨r, hr, rfl⟩ := h
    cases p with
    | entry low high =>
      simp only [parallelQuickSort] at hr
      split at hr
      · next hge =>
        simp only [Option.some.injEq] at hr; subst hr
        exact ThreadMove.skip low high hw hge
      · next hlt =>
        simp only [Option.map_eq_some'] at hr
        obtain ⟨r', hr', rfl⟩ := hr
        exact ThreadMove.split low high r'.1 r'.2 hw (by omega) hr'
    | left low pi high =>
      simp only [parallelQuickSort] at hr
      split at hr
      · next hT =>
        simp only [Option.map_eq_some'] at hr
        obtain ⟨s1, hs1, rfl⟩ := hr
        exact ThreadMove.leftPush low pi high s1 hw hT hs1
      · next hT =>
        simp only [Option.map_eq_some'] at hr
        obtain ⟨m, hm, rfl⟩ := hr
        exact ThreadMove.leftInline low pi high m hw hT hm
    | right low pi high =>
      simp only [parallelQuickSort] at hr
      split at hr
      · next hT =>
        simp only [Option.map_eq_some'] at hr
        obtain ⟨s1, hs1, rfl⟩ := hr
        exact ThreadMove.rightPush low pi high s1 hw hT hs1
      · next hT =>
        simp only [Option.map_eq_some'] at hr
        obtain ⟨m, hm, rfl⟩ := hr
        exact ThreadMove.rightInline low pi high m hw hT hm
    | ret => exact absurd rfl hp
  · simp at h

theorem notifyOne_running (ws ws' : List Worker) (wake : Nat)
    (h : notifyOne ws wake = some ws') (i : Nat) (p : Phase)
    (hi : ws[i]? = some (Worker.running p)) : ws'[i]? = some (Worker.running p) := by
  unfold notifyOne at h
  split at h
  · next hb =>
    simp only [Option.some.injEq] at h
    subst h
    have hne : wake ≠ i := by
      intro e
      subst e
      rw [hb] at hi
      simp at hi
    rw [List.getElem?_set, if_neg hne]
    exact hi
  · split at h
    · simp at h
    · simp only [Option.some.injEq] at h
      subst h; exact hi

theorem pushTask_running (s s' : State) (low high : Int) (wake : Nat)
    (h : pushTask s low high wake = some s') (i : Nat) (p : Phase)
    (hi : s.m_threads[i]? = some (Worker.running p)) :
    s'.m_threads[i]? = some (Worker.running p) := by
  unfold pushTask at h
  split at h
  · simp at h
  · simp only [Option.map_eq_some'] at h
    obtain ⟨ws, hn, rfl⟩ := h
    exact notifyOne_running _ _ _ hn i p hi

theorem threadMove_counter (T : Int) (s s' : State) (i wake : Nat)
    (h : ThreadMove T s i wake s') (hc : CounterInv s) : CounterInv s' := by
  unfold CounterInv at hc ⊢
  cases h with
  | idle w w' hw h1 h2 =>
    simp only [setThread]
    rw [busy_set_idle _ _ _ _ hw h1 h2]
    exact hc
  | dequeue w t q hw h1 hq =>
    have := busy_set s.m_threads i w (Worker.running (Phase.entry t.1 t.2)) hw
    rw [h1] at this
    simp only [Worker.isRunning] at this
    simp only [setThread]
    rw [hq] at hc
    simp only [List.length_cons] at hc
    simp at this
    omega
  | skip low high hw hge =>
    have := busy_set s.m_threads i _ (Worker.running Phase.ret) hw
    simp only [Worker.isRunning] at this
    simp only [setThread]
    omega
  | split low high pi m hw hlt hp =>
    have := busy_set s.m_threads i _ (Worker.running (Phase.left low pi high)) hw
    simp only [Worker.isRunning] at this
    simp only [setThread]
    omega
  | leftPush low pi high s1 hw hT hp =>
    obtain ⟨ha, hq, hb, _⟩ := pushTask_counter _ _ _ _ _ hp
    have hw1 := pushTask_running _ _ _ _ _ hp i _ hw
    have := busy_set s1.m_threads i _ (Worker.running (Phase.right low pi high)) hw1
    simp only [Worker.isRunning] at this
    simp only [setThread, ha, hq, List.length_append, List.length_singleton]
    omega
  | leftInline low pi high m hw hT hq =>
    have := busy_set s.m_threads i _ (Worker.running (Phase.right low pi high)) hw
    simp only [Worker.isRunning] at this
    simp only [setThread]
    omega
  | rightPush low pi high s1 hw hT hp =>
    obtain ⟨ha, hq, hb, _⟩ := pushTask_counter _ _ _ _ _ hp
    have hw1 := pushTask_running _ _ _ _ _ hp i _ hw
    have := busy_set s1.m_threads i _ (Worker.running Phase.ret) hw1
    simp only [Worker.isRunning] at this
    simp only [setThread, ha, hq, List.length_append, List.length_singleton]
    omega
  | rightInline low pi high m hw hT hq =>
    have := busy_set s.m_threads i _ (Worker.running Phase.ret) hw
    simp only [Worker.isRunning] at this
    simp only [setThread]
    omega
  | finish hw =>
    have := busy_set s.m_threads i _ Worker.loopHead hw
    simp only [Worker.isRunning] at this
    simp only [setThread, decrement]
    have hpos : s.active_tasks ≠ 0 := by
      have := busy_pos_of_running _ _ _ hw
      omega
    simp only [hpos, if_false]
    simp at this
    omega

theorem step_counter (T : Int) (s s' : State) (a : Action) (h : step T s a = some s')
    (hc : CounterInv s) : CounterInv s' := by
  cases a with
  | submit low high wake =>
    obtain ⟨ha, hq, hb, _⟩ := pushTask_counter _ _ _ _ _ h
    unfold CounterInv at hc ⊢
    rw [ha, hq, hb, List.length_append, List.length_singleton]
    omega
  | stopStore =>
    simp only [step] at h
    split at h
    · simp only [Option.some.injEq] at h; subst h; exact hc
    · simp at h
  | stopNotify =>
    simp only [step] at h
    split at h
    · simp only [Option.some.injEq] at h; subst h
      unfold CounterInv at hc ⊢
      simp only [busy_notifyAll]
      exact hc
    · simp at h
  | thread i wake => exact threadMove_counter T s s' i wake (threadFunc_move T s s' i wake h) hc
  | spurious i =>
    simp only [step] at h
    split at h
    · next hb =>
      simp only [Option.some.injEq] at h; subst h
      unfold CounterInv at hc ⊢
      simp only [setThread]
      rw [busy_set_idle _ _ _ Worker.woken hb rfl rfl]
      exact hc
    · simp at h

theorem run_append (T : Int) (as bs : List Action) (s : State) :
    run T (as ++ bs) s = (run T as s).bind (run T bs) := by
  induction as generalizing s with
  | nil => simp [run]
  | cons a as ih =>
    simp only [List.cons_append, run]
    cases step T s a with
    | none => simp
    | some s1 => simp [ih]

/-- An invariant of single steps holds along every schedule. -/
theorem run_invariant (T : Int) (P : State → Prop)
    (hstep : ∀ s s' a, step T s a = some s' → P s → P s') :
    ∀ (acts : List Action) (s s' : State), run T acts s = some s' → P s → P s' := by
  intro acts
  induction acts with
  | nil =>
    intro s s' h hp
    simp only [run, Option.some.injEq] at h
    subst h; exact hp
  | cons a rest ih =>
    intro s s' h hp
    simp only [run] at h
    cases hs : step T s a with
    | none => rw [hs] at h; simp at h
    | some s1 =>
      rw [hs] at h
      exact ih s1 s' h (hstep s s1 a hs hp)

theorem start_counter (n : Nat) (arr : List Int) : CounterInv (start n arr) := by
  unfold CounterInv start
  have : ∀ k : Nat, busy (List.replicate k Worker.loopHead) = 0 := by
    intro k
    induction k with
    | zero => rfl
    | succ k ih => simp [List.replicate_succ, busy, ih, Worker.isRunning]
  simp [this]

theorem reachable_counter (T : Int) (s : State) (h : Reachable T s) : CounterInv s := by
  obtain ⟨n, arr, acts, hr⟩ := h
  exact run_invariant T CounterInv (step_counter T) acts _ _ hr (start_counter n arr)

theorem threadMove_delta (T : Int) (s s' : State) (i wake : Nat)
    (h : ThreadMove T s i wake s') (hc : CounterInv s) : CounterDelta s s' := by
  unfold CounterInv at hc
  unfold CounterDelta
  cases h with
  | idle w w' hw h1 h2 =>
    right; right
    simp only [setThread]
    rw [busy_set_idle _ _ _ _ hw h1 h2]
    exact ⟨trivial, rfl⟩
  | dequeue w t q hw h1 hq =>
    right; right
    have := busy_set s.m_threads i w (Worker.running (Phase.entry t.1 t.2)) hw
    rw [h1] at this
    simp only [Worker.isRunning] at this
    simp only [setThread]
    rw [hq]
    simp only [List.length_cons]
    simp at this
    exact ⟨trivial, by omega⟩
  | skip low high hw hge =>
    right; right
    have := busy_set s.m_threads i _ (Worker.running Phase.ret) hw
    simp only [Worker.isRunning] at this
    simp only [setThread]
    exact ⟨trivial, by omega⟩
  | split low high pi m hw hlt hp =>
    right; right
    have := busy_set s.m_threads i _ (Worker.running (Phase.left low pi high)) hw
    simp only [Worker.isRunning] at this
    simp only [setThread]
    exact ⟨trivial, by omega⟩
  | leftPush low pi high s1 hw hT hp =>
    left
    obtain ⟨ha, hq, hb, _⟩ := pushTask_counter _ _ _ _ _ hp
    have hw1 := pushTask_running _ _ _ _ _ hp i _ hw
    have := busy_set s1.m_threads i _ (Worker.running (Phase.right low pi high)) hw1
    simp only [Worker.isRunning] at this
    simp only [setThread, ha, hq, List.length_append, List.length_singleton]
    exact ⟨trivial, trivial, by omega⟩
  | leftInline low pi high m hw hT hq =>
    right; right
    have := busy_set s.m_threads i _ (Worker.running (Phase.right low pi high)) hw
    simp only [Worker.isRunning] at this
    simp only [setThread]
    exact ⟨trivial, by omega⟩
  | rightPush low pi high s1 hw hT hp =>
    left
    obtain ⟨ha, hq, hb, _⟩ := pushTask_counter _ _ _ _ _ hp
    have hw1 := pushTask_running _ _ _ _ _ hp i _ hw
    have := busy_set s1.m_threads i _ (Worker.running Phase.ret) hw1
    simp only [Worker.isRunning] at this
    simp only [setThread, ha, hq, List.length_append, List.length_singleton]
    exact ⟨trivial, trivial, by omega⟩
  | rightInline low pi high m hw hT hq =>
    right; right
    have := busy_set s.m_threads i _ (Worker.running Phase.ret) hw
    simp only [Worker.isRunning] at this
    simp only [setThread]
    exact ⟨trivial, by omega⟩
  | finish hw =>
    right; left
    have := busy_set s.m_threads i _ Worker.loopHead hw
    simp only [Worker.isRunning] at this
    simp only [setThread, decrement]
    have hpos : s.active_tasks ≠ 0 := by
      have := busy_pos_of_running _ _ _ hw
      omega
    simp only [hpos, if_false]
    simp at this
    exact ⟨by omega, trivial, trivial, by omega⟩

theorem step_delta (T : Int) (s s' : State) (a : Action) (h : step T s a = some s')
    (hc : CounterInv s) : CounterDelta s s' := by
  cases a with
  | submit low high wake =>
    obtain ⟨ha, hq, hb, _⟩ := pushTask_counter _ _ _ _ _ h
    left
    rw [ha, hq, hb, List.length_append, List.length_singleton]
    exact ⟨rfl, rfl, rfl⟩
  | stopStore =>
    simp only [step] at h
    split at h
    · simp only [Option.some.injEq] at h; subst h
      right; right; exact ⟨rfl, rfl⟩
    · simp at h
  | stopNotify =>
    simp only [step] at h
    split at h
    · simp only [Option.some.injEq] at h; subst h
      right; right
      simp only [busy_notifyAll]
      exact ⟨trivial, trivial⟩
    · simp at h
  | thread i wake => exact threadMove_delta T s s' i wake (threadFunc_move T s s' i wake h) hc
  | spurious i =>
    simp only [step] at h
    split at h
    · next hb =>
      simp only [Option.some.injEq] at h; subst h
      right; right
      simp only [setThread]
      rw [busy_set_idle _ _ _ Worker.woken hb rfl rfl]
      exact ⟨trivial, rfl⟩
    · simp at h

/-! ## Ranges owned by tasks -/

theorem RangesDisjoint.symm {r1 r2 : Int × Int} (h : RangesDisjoint r1 r2) :
    RangesDisjoint r2 r1 := fun k hk => h k ⟨hk.2.2.1, hk.2.2.2, hk.1, hk.2.1⟩

theorem PendInv.of_perm {S cells : List Int} {P P' : List (Int × Int)}
    (h : PendInv S cells P) (hp : P.Perm P') : PendInv S cells P' where
  len := h.len
  perm := h.perm
  bounds := fun r hr => h.bounds r (hp.mem_iff.mpr hr)
  disj := (hp.pairwise_iff (fun hxy => RangesDisjoint.symm hxy)).mp h.disj
  sorted := fun k1 k2 a b c hr => h.sorted k1 k2 a b c (fun r hr' => hr r (hp.mem_iff.mp hr'))

/-- After an operation confined to the outstanding range `(l, hi)`, two positions that are
not both inside it and not both inside another outstanding range are still in order. -/
theorem PendInv.mixed {S : List Int} {m m' : Mem} {l hi : Int} {R : List (Int × Int)}
    (h : PendInv S m.cells ((l, hi) :: R)) (hw : Within l hi m m') (k1 k2 : Int)
    (h0 : 0 ≤ k1) (h12 : k1 < k2) (h2 : k2 < S.length) (hnot : ¬ (l ≤ k1 ∧ k2 ≤ hi))
    (hR : ∀ r ∈ R, ¬ (r.1 ≤ k1 ∧ k2 ≤ r.2)) : rd m'.cells k1 ≤ rd m'.cells k2 := by
  have hb := h.bounds (l, hi) (List.mem_cons_self _ _)
  simp only at hb
  have hlen := h.len
  have hd : ∀ r ∈ R, RangesDisjoint (l, hi) r := (List.pairwise_cons.mp h.disj).1
  by_cases a1 : l ≤ k1 ∧ k1 ≤ hi
  · have a2 : hi < k2 := by omega
    obtain ⟨k1', b1, b2, e⟩ := hw.mem hb.1 (by omega) k1 a1.1 a1.2
    rw [e, hw.frame k2 (Or.inr a2)]
    apply h.sorted k1' k2 (by omega) (by omega) h2
    intro r hr
    rcases List.mem_cons.mp hr with rfl | hr
    · simp only; omega
    · intro hc
      exact hd r hr k1' ⟨b1, b2, hc.1, by omega⟩
  · by_cases a2 : l ≤ k2 ∧ k2 ≤ hi
    · have a1' : k1 < l := by omega
      obtain ⟨k2', b1, b2, e⟩ := hw.mem hb.1 (by omega) k2 a2.1 a2.2
      rw [e, hw.frame k1 (Or.inl a1')]
      apply h.sorted k1 k2' h0 (by omega) (by omega)
      intro r hr
      rcases List.mem_cons.mp hr with rfl | hr
      · simp only; omega
      · intro hc
        exact hd r hr k2' ⟨b1, b2, by omega, hc.2⟩
    · rw [hw.frame k1 (by omega), hw.frame k2 (by omega)]
      apply h.sorted k1 k2 h0 h12 h2
      intro r hr
      rcases List.mem_cons.mp hr with rfl | hr
      · exact hnot
      · exact hR r hr

/-- A range that has been sorted is no longer outstanding. -/
theorem PendInv.finish {S : List Int} {m m' : Mem} {l hi : Int} {R : List (Int × Int)}
    (h : PendInv S m.cells ((l, hi) :: R)) (hw : Within l hi m m')
    (hs : SortedOn l hi m'.cells) : PendInv S m'.cells R where
  len := hw.len.trans h.len
  perm := hw.perm.trans h.perm
  bounds := fun r hr => h.bounds r (List.mem_cons_of_mem _ hr)
  disj := (List.pairwise_cons.mp h.disj).2
  sorted := fun k1 k2 a b c hr => by
    by_cases hin : l ≤ k1 ∧ k2 ≤ hi
    · exact hs k1 k2 hin.1 (by omega) hin.2
    · exact h.mixed hw k1 k2 a b c hin hr

/-- After `partition` the two sub-ranges beside the pivot replace the range. -/
theorem PendInv.split {S : List Int} {m m' : Mem} {l hi p : Int} {R : List (Int × Int)}
    (h : PendInv S m.cells ((l, hi) :: R)) (hlt : l < hi)
    (hp : partition m l hi = some (p, m')) :
    PendInv S m'.cells ((l, p - 1) :: (p + 1, hi) :: R) ∧ l ≤ p ∧ p ≤ hi ∧
      Within l hi m m' ∧ m'.calls = (l, hi) :: m.calls := by
  have hb := h.bounds (l, hi) (List.mem_cons_self _ _)
  simp only at hb
  obtain ⟨p0, m0, e0, hw, hc, hp1, hp2, hpv, hlo, hhi⟩ :=
    partition_spec m l hi hb.1 (by omega) (by rw [h.len]; exact hb.2)
  rw [hp] at e0
  simp only [Option.some.injEq, Prod.mk.injEq] at e0
  obtain ⟨rfl, rfl⟩ := e0
  have hd : ∀ r ∈ R, RangesDisjoint (l, hi) r := (List.pairwise_cons.mp h.disj).1
  refine ⟨⟨hw.len.trans h.len, hw.perm.trans h.perm, ?_, ?_, ?_⟩, hp1, hp2, hw, hc⟩
  · intro r hr
    simp only [List.mem_cons] at hr
    rcases hr with rfl | rfl | hr
    · simp only; omega
    · simp only; omega
    · exact h.bounds r (List.mem_cons_of_mem _ hr)
  · refine List.pairwise_cons.mpr ⟨?_, List.pairwise_cons.mpr ⟨?_, (List.pairwise_cons.mp h.disj).2⟩⟩
    · intro r hr
      rcases List.mem_cons.mp hr with rfl | hr
      · intro k hk; simp only at hk; omega
      · intro k hk
        exact hd r hr k ⟨by simpa using hk.1, by have := hk.2.1; simp only at this; omega,
          hk.2.2.1, hk.2.2.2⟩
    · intro r hr k hk
      exact hd r hr k ⟨by have := hk.1; simp only at this; omega, by simpa using hk.2.1,
        hk.2.2.1, hk.2.2.2⟩
  · intro k1 k2 a b c hr
    have hL := hr (l, p - 1) (by simp)
    have hRt := hr (p + 1, hi) (by simp)
    simp only at hL hRt
    by_cases hin : l ≤ k1 ∧ k2 ≤ hi
    · by_cases c1 : k1 < p
      · exact le_trans (le_of_lt (hlo k1 hin.1 c1)) (hhi k2 (by omega) hin.2)
      · have e : k1 = p := by omega
        rw [e, hpv]
        exact hhi k2 (by omega) hin.2
    · exact h.mixed hw k1 k2 a b c hin
        (fun r hr' => hr r (List.mem_cons_of_mem _ (List.mem_cons_of_mem _ hr')))

theorem ownedBy_set : ∀ (ws : List Worker) (i : Nat) (w : Worker), ws[i]? = some w →
    ∃ R, (ownedBy ws).Perm (w.owned ++ R) ∧
      ∀ w' : Worker, (ownedBy (ws.set i w')).Perm (w'.owned ++ R)
  | [], i, w, h => by simp at h
  | v :: ws, 0, w, h => by
    simp only [List.getElem?_cons_zero, Option.some.injEq] at h
    subst h
    exact ⟨ownedBy ws, List.Perm.refl _, fun w' => List.Perm.refl _⟩
  | v :: ws, i + 1, w, h => by
    simp only [List.getElem?_cons_succ] at h
    obtain ⟨R, h1, h2⟩ := ownedBy_set ws i w h
    refine ⟨v.owned ++ R, ?_, fun w' => ?_⟩
    · exact ((List.Perm.append_left v.owned h1).trans (List.perm_append_comm_assoc _ _ _))
    · simp only [List.set_cons_succ, ownedBy]
      exact ((List.Perm.append_left v.owned (h2 w')).trans (List.perm_append_comm_assoc _ _ _))

theorem ownedBy_set_idle : ∀ (ws : List Worker) (i : Nat) (w w' : Worker), ws[i]? = some w →
    w.owned = [] → w'.owned = [] → ownedBy (ws.set i w') = ownedBy ws
  | [], i, w, w', h, _, _ => by simp at h
  | v :: ws, 0, w, w', h, h1, h2 => by
    simp only [List.getElem?_cons_zero, Option.some.injEq] at h
    subst h
    simp only [List.set_cons_zero, ownedBy, h1, h2]
  | v :: ws, i + 1, w, w', h, h1, h2 => by
    simp only [List.getElem?_cons_succ] at h
    simp only [List.set_cons_succ, ownedBy, ownedBy_set_idle ws i w w' h h1 h2]

theorem ownedBy_notifyAll : ∀ ws : List Worker, ownedBy (notifyAll ws) = ownedBy ws
  | [] => rfl
  | w :: ws => by
    have ih := ownedBy_notifyAll ws
    unfold notifyAll at ih ⊢
    simp only [List.map_cons, ownedBy, ih]
    by_cases h : w = Worker.blocked
    · subst h; rfl
    · simp [h]

theorem ownedBy_notifyOne (ws ws' : List Worker) (wake : Nat)
    (h : notifyOne ws wake = some ws') : ownedBy ws' = ownedBy ws := by
  unfold notifyOne at h
  split at h
  · next hb =>
    simp only [Option.some.injEq] at h
    subst h
    exact ownedBy_set_idle ws wake _ _ hb rfl rfl
  · split at h
    · simp at h
    · simp only [Option.some.injEq] at h
      subst h; rfl

theorem wf_notifyOne (ws ws' : List Worker) (wake : Nat) (h : notifyOne ws wake = some ws')
    (hwf : ∀ w ∈ ws, w.wf) : ∀ w ∈ ws', w.wf := by
  unfold notifyOne at h
  split at h
  · simp only [Option.some.injEq] at h
    subst h
    intro w hw
    rcases List.mem_or_eq_of_mem_set hw with h1 | h1
    · exact hwf w h1
    · subst h1; trivial
  · split at h
    · simp at h
    · simp only [Option.some.injEq] at h
      subst h; exact hwf

theorem wf_notifyAll (ws : List Worker) (hwf : ∀ w ∈ ws, w.wf) :
    ∀ w ∈ notifyAll ws, w.wf := by
  intro w hw
  unfold notifyAll at hw
  obtain ⟨v, hv, rfl⟩ := List.mem_map.mp hw
  by_cases hb : v = Worker.blocked
  · simp only [hb, if_true]; trivial
  · simp only [hb, if_false]; exact hwf v hv

theorem wf_set (ws : List Worker) (i : Nat) (w' : Worker) (hwf : ∀ w ∈ ws, w.wf)
    (h' : w'.wf) : ∀ w ∈ ws.set i w', w.wf := by
  intro w hw
  rcases List.mem_or_eq_of_mem_set hw with h1 | h1
  · exact hwf w h1
  · subst h1; exact h'

theorem pushTask_shape (s s' : State) (low high : Int) (wake : Nat)
    (h : pushTask s low high wake = some s') :
    ownedBy s'.m_threads = ownedBy s.m_threads ∧
      ((∀ w ∈ s.m_threads, w.wf) → ∀ w ∈ s'.m_threads, w.wf) ∧
      s'.m_work = s.m_work ∧ s'.stopper = s.stopper := by
  unfold pushTask at h
  split at h
  · simp at h
  · simp only [Option.map_eq_some'] at h
    obtain ⟨ws, hn, rfl⟩ := h
    exact ⟨ownedBy_notifyOne _ _ _ hn, wf_notifyOne _ _ _ hn, rfl, rfl⟩

theorem sortedOn_of_ge (low high : Int) (xs : List Int) (h : low ≥ high) :
    SortedOn low high xs := by
  intro k1 k2 a b c
  have : k1 = k2 := by omega
  rw [this]

theorem owned_of_not_running (w : Worker) (h : w.isRunning = false) : w.owned = [] := by
  cases w <;> simp_all [Worker.isRunning, Worker.owned]

theorem wf_of_not_running (w : Worker) (h : w.isRunning = false) : w.wf := by
  cases w <;> simp_all [Worker.isRunning, Worker.wf]

theorem pending_thread (s : State) (i : Nat) (w : Worker) (hw : s.m_threads[i]? = some w) :
    ∃ R, (pending s).Perm (w.owned ++ R) ∧
      ∀ w' : Worker, (s.m_task_queue ++ ownedBy (s.m_threads.set i w')).Perm (w'.owned ++ R) := by
  obtain ⟨R0, h1, h2⟩ := ownedBy_set s.m_threads i w hw
  refine ⟨s.m_task_queue ++ R0, ?_, fun w' => ?_⟩
  · exact (List.Perm.append_left _ h1).trans (List.perm_append_comm_assoc _ _ _)
  · exact (List.Perm.append_left _ (h2 w')).trans (List.perm_append_comm_assoc _ _ _)

theorem pending_push (s s1 : State) (low high : Int) (wake : Nat)
    (hp : pushTask s low high wake = some s1) :
    (pending s1).Perm ((low, high) :: pending s) := by
  obtain ⟨_, hq, _, _⟩ := pushTask_counter _ _ _ _ _ hp
  obtain ⟨ho, _, _, _⟩ := pushTask_shape _ _ _ _ _ hp
  unfold pending
  rw [hq, ho, List.append_assoc]
  exact List.perm_middle

theorem threadMove_sortInv (T : Int) (S : List Int) (s s' : State) (i wake : Nat)
    (h : ThreadMove T s i wake s') (hi : SortInv S s) : SortInv S s' := by
  have hcnt := threadMove_counter T s s' i wake h hi.counter
  cases h with
  | idle w w' hw h1 h2 =>
    refine ⟨hcnt, ?_, wf_set _ _ _ hi.wf (wf_of_not_running _ h2), hi.trace, hi.calls⟩
    show PendInv S s.mem.cells (s.m_task_queue ++ ownedBy (s.m_threads.set i w'))
    rw [ownedBy_set_idle _ _ _ _ hw (owned_of_not_running _ h1) (owned_of_not_running _ h2)]
    exact hi.pend
  | dequeue w t q hw h1 hq =>
    refine ⟨hcnt, ?_, wf_set _ _ _ hi.wf trivial, hi.trace, hi.calls⟩
    show PendInv S s.mem.cells
      (q ++ ownedBy (s.m_threads.set i (Worker.running (Phase.entry t.1 t.2))))
    obtain ⟨R0, p1, p2⟩ := ownedBy_set s.m_threads i w hw
    rw [owned_of_not_running _ h1, List.nil_append] at p1
    have p3 := p2 (Worker.running (Phase.entry t.1 t.2))
    apply hi.pend.of_perm
    unfold pending
    rw [hq]
    have e : (Worker.running (Phase.entry t.1 t.2)).owned = [t] := rfl
    rw [e] at p3
    exact ((List.Perm.append_left (t :: q) p1).trans
      (List.perm_middle.symm.trans (List.Perm.append_left q p3.symm)))
  | skip low high hw hge =>
    refine ⟨hcnt, ?_, wf_set _ _ _ hi.wf trivial, hi.trace, hi.calls⟩
    obtain ⟨R, p1, p2⟩ := pending_thread s i _ hw
    have p3 := p2 (Worker.running Phase.ret)
    show PendInv S s.mem.cells (s.m_task_queue ++ ownedBy (s.m_threads.set i _))
    exact ((hi.pend.of_perm p1).finish (Within.refl _ _ _)
      (sortedOn_of_ge _ _ _ hge)).of_perm p3.symm
  | split low high pi m hw hlt hp =>
    obtain ⟨R, p1, p2⟩ := pending_thread s i _ hw
    have p3 := p2 (Worker.running (Phase.left low pi high))
    obtain ⟨hpend, hl, hh, hwi, hc⟩ := (hi.pend.of_perm p1).split hlt hp
    have hb := hi.pend.bounds (low, high) (p1.mem_iff.mpr (by simp [Worker.owned, Phase.owned]))
    simp only at hb
    refine ⟨hcnt, ?_, wf_set _ _ _ hi.wf ⟨hl, hh⟩, ?_, ?_⟩
    · show PendInv S m.cells (s.m_task_queue ++ ownedBy (s.m_threads.set i _))
      exact hpend.of_perm p3.symm
    · intro x hx
      rcases hwi.trace x hx with h | h
      · exact hi.trace x h
      · omega
    · intro c hc'
      show 0 ≤ c.1 ∧ c.1 < c.2 ∧ c.2 < S.length
      have hc'' : c ∈ (low, high) :: s.mem.calls := by rw [← hc]; exact hc'
      rcases List.mem_cons.mp hc'' with h | h
      · subst h; exact ⟨hb.1, hlt, hb.2⟩
      · exact hi.calls c h
  | leftPush low pi high s1 hw hT hp =>
    obtain ⟨_, _, _, hm⟩ := pushTask_counter _ _ _ _ _ hp
    obtain ⟨_, hwf, _, _⟩ := pushTask_shape _ _ _ _ _ hp
    have hw1 := pushTask_running _ _ _ _ _ hp i _ hw
    obtain ⟨R, p1, p2⟩ := pending_thread s1 i _ hw1
    have p3 := p2 (Worker.running (Phase.right low pi high))
    have p4 := (pending_push _ _ _ _ _ hp).symm.trans p1
    have p5 : (pending s).Perm ((pi + 1, high) :: R) := p4.cons_inv
    have hwf0 : (Worker.running (Phase.left low pi high)).wf :=
      hi.wf _ (List.getElem?_mem hw)
    refine ⟨hcnt, ?_, wf_set _ _ _ (hwf hi.wf) hwf0, ?_, ?_⟩
    · show PendInv S s1.mem.cells (s1.m_task_queue ++ ownedBy (s1.m_threads.set i _))
      rw [hm]
      exact (hi.pend.of_perm p5).of_perm p3.symm
    · show ∀ x ∈ s1.mem.trace, _
      rw [hm]; exact hi.trace
    · show ∀ c ∈ s1.mem.calls, _
      rw [hm]; exact hi.calls
  | leftInline low pi high m hw hT hq =>
    obtain ⟨R, p1, p2⟩ := pending_thread s i _ hw
    have p3 := p2 (Worker.running (Phase.right low pi high))
    have hwf0 : (Worker.running (Phase.left low pi high)).wf :=
      hi.wf _ (List.getElem?_mem hw)
    have hb := hi.pend.bounds (low, pi - 1)
      (p1.mem_iff.mpr (by simp [Worker.owned, Phase.owned]))
    simp only at hb
    obtain ⟨m', e, hwi, hci, hs⟩ := quickSort_spec (quickSortFuel low (pi - 1)) s.mem low
      (pi - 1) hb.1 (by rw [hi.pend.len]; exact hb.2) (by unfold quickSortFuel; omega)
    rw [hq] at e
    simp only [Option.some.injEq] at e
    subst e
    refine ⟨hcnt, ?_, wf_set _ _ _ hi.wf hwf0, ?_, ?_⟩
    · show PendInv S m.cells (s.m_task_queue ++ ownedBy (s.m_threads.set i _))
      exact ((hi.pend.of_perm p1).finish hwi hs).of_perm p3.symm
    · intro x hx
      rcases hwi.trace x hx with h | h
      · exact hi.trace x h
      · omega
    · intro c hc
      rcases hci.old_or_new c hc with h | h
      · exact hi.calls c h
      · show 0 ≤ c.1 ∧ c.1 < c.2 ∧ c.2 < S.length
        omega
  | rightPush low pi high s1 hw hT hp =>
    obtain ⟨_, _, _, hm⟩ := pushTask_counter _ _ _ _ _ hp
    obtain ⟨_, hwf, _, _⟩ := pushTask_shape _ _ _ _ _ hp
    have hw1 := pushTask_running _ _ _ _ _ hp i _ hw
    obtain ⟨R, p1, p2⟩ := pending_thread s1 i _ hw1
    have p3 := p2 (Worker.running Phase.ret)
    have p4 := (pending_push _ _ _ _ _ hp).symm.trans p1
    have p5 : (pending s).Perm R := p4.cons_inv
    refine ⟨hcnt, ?_, wf_set _ _ _ (hwf hi.wf) trivial, ?_, ?_⟩
    · show PendInv S s1.mem.cells (s1.m_task_queue ++ ownedBy (s1.m_threads.set i _))
      rw [hm]
      exact (hi.pend.of_perm p5).of_perm p3.symm
    · show ∀ x ∈ s1.mem.trace, _
      rw [hm]; exact hi.trace
    · show ∀ c ∈ s1.mem.calls, _
      rw [hm]; exact hi.calls
  | rightInline low pi high m hw hT hq =>
    obtain ⟨R, p1, p2⟩ := pending_thread s i _ hw
    have p3 := p2 (Worker.running Phase.ret)
    have hb := hi.pend.bounds (pi + 1, high)
      (p1.mem_iff.mpr (by simp [Worker.owned, Phase.owned]))
    simp only at hb
    obtain ⟨m', e, hwi, hci, hs⟩ := quickSort_spec (quickSortFuel (pi + 1) high) s.mem
      (pi + 1) high hb.1 (by rw [hi.pend.len]; exact hb.2) (by unfold quickSortFuel; omega)
    rw [hq] at e
    simp only [Option.some.injEq] at e
    subst e
    refine ⟨hcnt, ?_, wf_set _ _ _ hi.wf trivial, ?_, ?_⟩
    · show PendInv S m.cells (s.m_task_queue ++ ownedBy (s.m_threads.set i _))
      exact ((hi.pend.of_perm p1).finish hwi hs).of_perm p3.symm
    · intro x hx
      rcases hwi.trace x hx with h | h
      · exact hi.trace x h
      · omega
    · intro c hc
      rcases hci.old_or_new c hc with h | h
      · exact hi.calls c h
      · show 0 ≤ c.1 ∧ c.1 < c.2 ∧ c.2 < S.length
        omega
  | finish hw =>
    refine ⟨hcnt, ?_, wf_set _ _ _ hi.wf trivial, hi.trace, hi.calls⟩
    show PendInv S s.mem.cells (s.m_task_queue ++ ownedBy (s.m_threads.set i Worker.loopHead))
    rw [ownedBy_set_idle _ _ _ Worker.loopHead hw rfl rfl]
    exact hi.pend

theorem step_sortInv (T : Int) (S : List Int) (s s' : State) (a : Action)
    (ha : a.internal = true) (h : step T s a = some s') (hi : SortInv S s) :
    SortInv S s' := by
  have hcnt := step_counter T s s' a h hi.counter
  cases a with
  | submit low high wake => simp [Action.internal] at ha
  | stopStore =>
    simp only [step] at h
    split at h
    · simp only [Option.some.injEq] at h; subst h
      exact ⟨hcnt, hi.pend, hi.wf, hi.trace, hi.calls⟩
    · simp at h
  | stopNotify =>
    simp only [step] at h
    split at h
    · simp only [Option.some.injEq] at h; subst h
      refine ⟨hcnt, ?_, wf_notifyAll _ hi.wf, hi.trace, hi.calls⟩
      show PendInv S s.mem.cells (s.m_task_queue ++ ownedBy (notifyAll s.m_threads))
      rw [ownedBy_notifyAll]
      exact hi.pend
    · simp at h
  | thread i wake => exact threadMove_sortInv T S s s' i wake (threadFunc_move T s s' i wake h) hi
  | spurious i =>
    simp only [step] at h
    split at h
    · next hb =>
      simp only [Option.some.injEq] at h; subst h
      refine ⟨hcnt, ?_, wf_set _ _ _ hi.wf trivial, hi.trace, hi.calls⟩
      show PendInv S s.mem.cells (s.m_task_queue ++ ownedBy (s.m_threads.set i Worker.woken))
      rw [ownedBy_set_idle _ _ _ Worker.woken hb rfl rfl]
      exact hi.pend
    · simp at h

theorem idle_set (ws : List Worker) (i : Nat) (w' : Worker)
    (h : ∀ w ∈ ws, w.isRunning = false) (h' : w'.isRunning = false) :
    ∀ w ∈ ws.set i w', w.isRunning = false := by
  intro w hw
  rcases List.mem_or_eq_of_mem_set hw with h1 | h1
  · exact h w h1
  · subst h1; exact h'

theorem step_idleInv (T : Int) (S : List Int) (s s' : State) (a : Action)
    (ha : a.internal = true) (h : step T s a = some s') (hi : IdleInv S s) :
    IdleInv S s' := by
  cases a with
  | submit low high wake => simp [Action.internal] at ha
  | stopStore =>
    simp only [step] at h
    split at h
    · simp only [Option.some.injEq] at h; subst h
      exact ⟨hi.queue, hi.active, hi.mem, hi.threads⟩
    · simp at h
  | stopNotify =>
    simp only [step] at h
    split at h
    · simp only [Option.some.injEq] at h; subst h
      refine ⟨hi.queue, hi.active, hi.mem, ?_⟩
      intro w hw
      unfold notifyAll at hw
      obtain ⟨v, hv, rfl⟩ := List.mem_map.mp hw
      by_cases hb : v = Worker.blocked
      · simp only [hb, if_true]; rfl
      · simp only [hb, if_false]; exact hi.threads v hv
    · simp at h
  | thread i wake =>
    have hm := threadFunc_move T s s' i wake h
    have hrun : ∀ p, s.m_threads[i]? ≠ some (Worker.running p) := by
      intro p hp
      have := hi.threads _ (List.getElem?_mem hp)
      simp [Worker.isRunning] at this
    cases hm with
    | idle w w' hw h1 h2 => exact ⟨hi.queue, hi.active, hi.mem, idle_set _ _ _ hi.threads h2⟩
    | dequeue w t q hw h1 hq => rw [hi.queue] at hq; simp at hq
    | skip low high hw hge => exact absurd hw (hrun _)
    | split low high pi m hw hlt hp => exact absurd hw (hrun _)
    | leftPush low pi high s1 hw hT hp => exact absurd hw (hrun _)
    | leftInline low pi high m hw hT hq => exact absurd hw (hrun _)
    | rightPush low pi high s1 hw hT hp => exact absurd hw (hrun _)
    | rightInline low pi high m hw hT hq => exact absurd hw (hrun _)
    | finish hw => exact absurd hw (hrun _)
  | spurious i =>
    simp only [step] at h
    split at h
    · simp only [Option.some.injEq] at h; subst h
      exact ⟨hi.queue, hi.active, hi.mem, idle_set _ _ _ hi.threads rfl⟩
    · simp at h

theorem ownedBy_idle : ∀ ws : List Worker, (∀ w ∈ ws, w.isRunning = false) → ownedBy ws = []
  | [], _ => rfl
  | w :: ws, h => by
    simp only [ownedBy, owned_of_not_running w (h w (List.mem_cons_self _ _)),
      ownedBy_idle ws (fun v hv => h v (List.mem_cons_of_mem _ hv)), List.append_nil]

theorem busy_idle : ∀ ws : List Worker, (∀ w ∈ ws, w.isRunning = false) → busy ws = 0
  | [], _ => rfl
  | w :: ws, h => by
    simp only [busy, h w (List.mem_cons_self _ _),
      busy_idle ws (fun v hv => h v (List.mem_cons_of_mem _ hv))]
    simp

/-- Submitting the top-level task over the whole array establishes the sort invariant. -/
theorem submit_sortInv (S : List Int) (s s' : State) (wake : Nat) (hi : IdleInv S s)
    (h : pushTask s 0 (S.length - 1) wake = some s') : SortInv S s' := by
  obtain ⟨ha, hq, hb, hm⟩ := pushTask_counter _ _ _ _ _ h
  obtain ⟨ho, hwf, _, _⟩ := pushTask_shape _ _ _ _ _ h
  have hp : pending s' = [(0, (S.length : Int) - 1)] := by
    unfold pending
    rw [hq, ho, hi.queue, ownedBy_idle _ hi.threads]
    rfl
  refine ⟨?_, ?_, hwf (fun w hw => wf_of_not_running w (hi.threads w hw)), ?_, ?_⟩
  · unfold CounterInv
    rw [ha, hq, hb, hi.queue, hi.active, busy_idle _ hi.threads]
    rfl
  · rw [hp, hm, hi.mem]
    refine ⟨rfl, List.Perm.refl _, ?_, List.pairwise_singleton _ _, ?_⟩
    · intro r hr
      simp only [List.mem_singleton] at hr
      subst hr
      simp only
      omega
    · intro k1 k2 a b c hr
      exact absurd ⟨a, by omega⟩ (hr _ (List.mem_singleton.mpr rfl))
  · rw [hm, hi.mem]; simp
  · rw [hm, hi.mem]; simp

theorem start_idleInv (n : Nat) (S : List Int) : IdleInv S (start n S) :=
  ⟨rfl, rfl, rfl, fun w hw => by
    rw [List.eq_of_mem_replicate hw]; rfl⟩

theorem run_internal_invariant (T : Int) (P : State → Prop)
    (hstep : ∀ s s' a, a.internal = true → step T s a = some s' → P s → P s') :
    ∀ (acts : List Action) (s s' : State), (∀ a ∈ acts, a.internal = true) →
      run T acts s = some s' → P s → P s' := by
  intro acts
  induction acts with
  | nil =>
    intro s s' _ h hp
    simp only [run, Option.some.injEq] at h
    subst h; exact hp
  | cons a rest ih =>
    intro s s' hall h hp
    simp only [run] at h
    cases hs : step T s a with
    | none => rw [hs] at h; simp at h
    | some s1 =>
      rw [hs] at h
      exact ih s1 s' (fun b hb => hall b (List.mem_cons_of_mem _ hb)) h
        (hstep s s1 a (hall a (List.mem_cons_self _ _)) hs hp)

/-- The sort invariant holds in every state reachable after the top-level submission. -/
theorem sortReachable_inv (T : Int) (n : Nat) (S : List Int) (s : State)
    (h : SortReachable T n S s) : SortInv S s := by
  obtain ⟨pre, post, wake, hpre, hpost, hr⟩ := h
  rw [run_append] at hr
  cases h0 : run T pre (start n S) with
  | none => rw [h0] at hr; simp at hr
  | some s0 =>
    rw [h0] at hr
    simp only [Option.some_bind, run] at hr
    have hidle : IdleInv S s0 :=
      run_internal_invariant T (IdleInv S) (step_idleInv T S) pre _ _ hpre h0
        (start_idleInv n S)
    cases h1 : step T s0 (Action.submit 0 (S.length - 1) wake) with
    | none => rw [h1] at hr; simp at hr
    | some s1 =>
      rw [h1] at hr
      simp only [Option.some_bind] at hr
      have hs1 : SortInv S s1 := submit_sortInv S s0 s1 wake hidle h1
      exact run_internal_invariant T (SortInv S) (step_sortInv T S) post _ _ hpost hr hs1

theorem idle_of_busy_zero : ∀ ws : List Worker, busy ws = 0 → ∀ w ∈ ws, w.isRunning = false
  | [], _, w, hw => by simp at hw
  | v :: ws, h, w, hw => by
    simp only [busy] at h
    rcases List.mem_cons.mp hw with rfl | hw
    · by_cases hr : w.isRunning = true
      · simp [hr] at h
      · simpa using hr
    · exact idle_of_busy_zero ws (by omega) w hw

/-- With the counter at zero after the top-level submission nothing is queued, nothing runs
and the array is sorted. -/
theorem SortInv.quiescent {S : List Int} {s : State} (hi : SortInv S s)
    (h0 : s.active_tasks = 0) :
    s.m_task_queue = [] ∧ (∀ w ∈ s.m_threads, w.isRunning = false) ∧
      List.Sorted (· ≤ ·) s.mem.cells ∧ s.mem.cells.Perm S := by
  have hc := hi.counter
  unfold CounterInv at hc
  have hq : s.m_task_queue = [] := List.eq_nil_of_length_eq_zero (by omega)
  have hb : busy s.m_threads = 0 := by omega
  have hidle := idle_of_busy_zero _ hb
  have hp : pending s = [] := by
    unfold pending
    rw [hq, ownedBy_idle _ hidle]
    rfl
  refine ⟨hq, hidle, ?_, hi.pend.perm⟩
  show List.Pairwise (· ≤ ·) s.mem.cells
  rw [List.pairwise_iff_getElem]
  intro a b ha hb' hab
  have := hi.pend.sorted a b (by omega) (by omega) (by rw [← hi.pend.len]; omega)
    (by rw [hp]; simp)
  rwa [rd_natCast _ a ha, rd_natCast _ b hb'] at this

/-! ## A schedule that completes the sort -/

theorem queueWt_append (q : List (Int × Int)) (t : Int × Int) :
    queueWt (q ++ [t]) = queueWt q + wt t := by
  induction q with
  | nil => simp [queueWt]
  | cons a q ih =>
    show wt a + queueWt (q ++ [t]) = wt a + queueWt q + wt t
    rw [ih]; omega

theorem Solo.nolock {s : State} {w0 : Worker} {rest : List Worker} (h : Solo s w0 rest) :
    Worker.preWait ∉ s.m_threads := by
  rw [h.threads]
  intro hm
  rcases List.mem_cons.mp hm with e | e
  · rcases h.head with h1 | ⟨p, h1⟩ <;> rw [h1] at e <;> simp at e
  · have := h.rest _ e
    simp at this

theorem Solo.noblocked {s : State} {w0 : Worker} {rest : List Worker} (h : Solo s w0 rest) :
    Worker.blocked ∉ s.m_threads := by
  rw [h.threads]
  intro hm
  rcases List.mem_cons.mp hm with e | e
  · rcases h.head with h1 | ⟨p, h1⟩ <;> rw [h1] at e <;> simp at e
  · have := h.rest _ e
    simp at this

theorem Solo.pushTask {s : State} {w0 : Worker} {rest : List Worker}
    (h : Solo s w0 rest) (low high : Int) :
    pushTask s low high 0 = some { s with active_tasks := s.active_tasks + 1,
                                          m_task_queue := s.m_task_queue ++ [(low, high)] } := by
  have h1 := h.nolock
  have h2 := h.noblocked
  have h3 : s.m_threads[0]? ≠ some Worker.blocked := by
    rw [h.threads]
    rcases h.head with e | ⟨p, e⟩ <;> rw [e] <;> simp
  simp [PoolSort.pushTask, h1, notifyOne, h2, h3]

theorem busy_loopHead : ∀ ws : List Worker, (∀ w ∈ ws, w = Worker.loopHead) → busy ws = 0
  | [], _ => rfl
  | w :: ws, h => by
    have e := h w (List.mem_cons_self _ _)
    subst e
    simp only [busy, Worker.isRunning,
      busy_loopHead ws (fun v hv => h v (List.mem_cons_of_mem _ hv))]
    simp

/-- While the counter is not zero worker 0 can take a step, and the step lowers the
measure. -/
theorem solo_step (T : Int) (S : List Int) (s : State) (w0 : Worker) (rest : List Worker)
    (hi : SortInv S s) (hs : Solo s w0 rest) (hne : s.active_tasks ≠ 0) :
    ∃ s1 w1, threadFunc T s 0 0 = some s1 ∧ Solo s1 w1 rest ∧ mu s1 < mu s := by
  have hth := hs.threads
  have hget : s.m_threads[0]? = some w0 := by rw [hth]; simp
  have hnl := hs.nolock
  have hwk := hs.work
  rcases hs.head with h0 | ⟨p, h0⟩
  · -- at the loop head: the queue cannot be empty
    subst h0
    have hc := hi.counter
    unfold CounterInv at hc
    have hb : busy s.m_threads = 0 := by
      rw [hth]
      simp only [busy, Worker.isRunning, busy_loopHead rest hs.rest]
      simp
    cases hq : s.m_task_queue with
    | nil => rw [hq] at hc; simp at hc; omega
    | cons t q =>
      refine ⟨setThread { s with m_task_queue := q } 0 (Worker.running (Phase.entry t.1 t.2)),
        Worker.running (Phase.entry t.1 t.2), ?_, ?_, ?_⟩
      · simp [threadFunc, hget, hnl, hwk, hq]
      · exact ⟨by simp [setThread, hth], hs.rest, Or.inr ⟨_, rfl⟩, hwk⟩
      · simp only [mu, setThread, hth, hq, List.set_cons_zero, queueWt, Worker.mu, Phase.mu, wt]
        omega
  · subst h0
    have hmem : ∀ r ∈ p.owned, r ∈ pending s := by
      intro r hr
      unfold pending
      rw [hth]
      simp only [ownedBy, Worker.owned, List.mem_append]
      exact Or.inr (Or.inl hr)
    have hwf : (Worker.running p).wf := hi.wf _ (List.getElem?_mem hget)
    cases p with
    | entry low high =>
      by_cases hge : low ≥ high
      · refine ⟨setThread s 0 (Worker.running Phase.ret), Worker.running Phase.ret, ?_, ?_, ?_⟩
        · simp [threadFunc, hget, parallelQuickSort, hge]
        · exact ⟨by simp [setThread, hth], hs.rest, Or.inr ⟨_, rfl⟩, hwk⟩
        · simp only [mu, setThread, hth, List.set_cons_zero, Worker.mu, Phase.mu, wt]
          omega
      · have hb := hi.pend.bounds (low, high) (hmem _ (by simp [Phase.owned]))
        simp only at hb
        obtain ⟨pi, m', hp, _, _, hl, hh, _⟩ :=
          partition_spec s.mem low high hb.1 (by omega) (by rw [hi.pend.len]; exact hb.2)
        refine ⟨setThread { s with mem := m' } 0 (Worker.running (Phase.left low pi high)),
          Worker.running (Phase.left low pi high), ?_, ?_, ?_⟩
        · simp [threadFunc, hget, parallelQuickSort, hge, hp]
        · exact ⟨by simp [setThread, hth], hs.rest, Or.inr ⟨_, rfl⟩, hwk⟩
        · simp only [mu, setThread, hth, List.set_cons_zero, Worker.mu, Phase.mu, wt]
          omega
    | left low pi high =>
      by_cases hT : pi - low > T
      · have hp := hs.pushTask low (pi - 1)
        refine ⟨setThread { s with active_tasks := s.active_tasks + 1,
                                   m_task_queue := s.m_task_queue ++ [(low, pi - 1)] } 0
            (Worker.running (Phase.right low pi high)),
          Worker.running (Phase.right low pi high), ?_, ?_, ?_⟩
        · simp [threadFunc, hget, parallelQuickSort, hT, hp]
        · exact ⟨by simp [setThread, hth], hs.rest, Or.inr ⟨_, rfl⟩, hwk⟩
        · simp only [mu, setThread, hth, List.set_cons_zero, Worker.mu, Phase.mu,
            queueWt_append]
          omega
      · have hb := hi.pend.bounds (low, pi - 1) (hmem _ (by simp [Phase.owned]))
        simp only at hb
        obtain ⟨m', hq, _⟩ := quickSort_spec (quickSortFuel low (pi - 1)) s.mem low (pi - 1)
          hb.1 (by rw [hi.pend.len]; exact hb.2) (by unfold quickSortFuel; omega)
        refine ⟨setThread { s with mem := m' } 0 (Worker.running (Phase.right low pi high)),
          Worker.running (Phase.right low pi high), ?_, ?_, ?_⟩
        · simp [threadFunc, hget, parallelQuickSort, hT, hq]
        · exact ⟨by simp [setThread, hth], hs.rest, Or.inr ⟨_, rfl⟩, hwk⟩
        · simp only [mu, setThread, hth, List.set_cons_zero, Worker.mu, Phase.mu]
          omega
    | right low pi high =>
      by_cases hT : high - pi > T
      · have hp := hs.pushTask (pi + 1) high
        refine ⟨setThread { s with active_tasks := s.active_tasks + 1,
                                   m_task_queue := s.m_task_queue ++ [(pi + 1, high)] } 0
            (Worker.running Phase.ret), Worker.running Phase.ret, ?_, ?_, ?_⟩
        · simp [threadFunc, hget, parallelQuickSort, hT, hp]
        · exact ⟨by simp [setThread, hth], hs.rest, Or.inr ⟨_, rfl⟩, hwk⟩
        · simp only [mu, setThread, hth, List.set_cons_zero, Worker.mu, Phase.mu,
            queueWt_append]
          omega
      · have hb := hi.pend.bounds (pi + 1, high) (hmem _ (by simp [Phase.owned]))
        simp only at hb
        obtain ⟨m', hq, _⟩ := quickSort_spec (quickSortFuel (pi + 1) high) s.mem (pi + 1) high
          hb.1 (by rw [hi.pend.len]; exact hb.2) (by unfold quickSortFuel; omega)
        refine ⟨setThread { s with mem := m' } 0 (Worker.running Phase.ret),
          Worker.running Phase.ret, ?_, ?_, ?_⟩
        · simp [threadFunc, hget, parallelQuickSort, hT, hq]
        · exact ⟨by simp [setThread, hth], hs.rest, Or.inr ⟨_, rfl⟩, hwk⟩
        · simp only [mu, setThread, hth, List.set_cons_zero, Worker.mu, Phase.mu]
          omega
    | ret =>
      refine ⟨setThread { s with active_tasks := decrement s.active_tasks } 0 Worker.loopHead,
        Worker.loopHead, ?_, ?_, ?_⟩
      · simp [threadFunc, hget]
      · exact ⟨by simp [setThread, hth], hs.rest, Or.inl rfl, hwk⟩
      · simp only [mu, setThread, hth, List.set_cons_zero, Worker.mu, Phase.mu]
        omega

/-- Letting worker 0 run alone completes the sort: after finitely many of its steps the
counter is zero. -/
theorem solo_terminates (T : Int) (S : List Int) : ∀ (n : Nat) (s : State) (w0 : Worker)
    (rest : List Worker), SortInv S s → Solo s w0 rest → mu s ≤ n →
    ∃ k s', run T (List.replicate k (Action.thread 0 0)) s = some s' ∧
      s'.active_tasks = 0 ∧ SortInv S s' := by
  intro n
  induction n with
  | zero =>
    intro s w0 rest hi hs hm
    by_cases h0 : s.active_tasks = 0
    · exact ⟨0, s, rfl, h0, hi⟩
    · obtain ⟨s1, w1, _, _, hlt⟩ := solo_step T S s w0 rest hi hs h0
      omega
  | succ n ih =>
    intro s w0 rest hi hs hm
    by_cases h0 : s.active_tasks = 0
    · exact ⟨0, s, rfl, h0, hi⟩
    · obtain ⟨s1, w1, hstep, hs1, hlt⟩ := solo_step T S s w0 rest hi hs h0
      have hi1 : SortInv S s1 :=
        step_sortInv T S s s1 (Action.thread 0 0) rfl hstep hi
      obtain ⟨k, s', hr, hz, hi'⟩ := ih s1 w1 rest hi1 hs1 (by omega)
      refine ⟨k + 1, s', ?_, hz, hi'⟩
      simp only [List.replicate_succ, run, step, hstep, Option.some_bind, hr]

/-! ## The claims about the sequential functions -/

/-- C2. On a range with `0 ≤ low < high < length`, `partition` returns an index `p` with
`low ≤ p ≤ high`; afterwards cell `p` holds the pivot (the value cell `high` held before),
every cell of `[low, p - 1]` is strictly below the pivot and every cell of `[p, high]` is
at least the pivot. -/
theorem partition_postcondition (m : Mem) (low high : Int) (h0 : 0 ≤ low) (hlt : low < high)
    (hh : high < m.cells.length) :
    ∃ p m', partition m low high = some (p, m') ∧ low ≤ p ∧ p ≤ high ∧
      rd m'.cells p = rd m.cells high ∧
      (∀ k, low ≤ k → k ≤ p - 1 → rd m'.cells k < rd m.cells high) ∧
      (∀ k, p ≤ k → k ≤ high → rd m.cells high ≤ rd m'.cells k) := by
  obtain ⟨p, m', hp, _, _, hl, hu, hpv, hlo, hhi⟩ :=
    partition_spec m low high h0 (le_of_lt hlt) hh
  exact ⟨p, m', hp, hl, hu, hpv, fun k a b => hlo k a (by omega), hhi⟩

theorem partition_postcondition_witness :
    (0 : Int) ≤ 0 ∧ (0 : Int) < 5 ∧
    (5 : Int) < (({ cells := [5, 3, 8, 1, 9, 2], trace := [], calls := [] } : Mem).cells.length) ∧
    ∃ p m', partition { cells := [5, 3, 8, 1, 9, 2], trace := [], calls := [] } 0 5 =
        some (p, m') ∧ (0 : Int) ≤ p ∧ p ≤ 5 ∧
      rd m'.cells p = rd [5, 3, 8, 1, 9, 2] 5 ∧
      (∀ k, 0 ≤ k → k ≤ p - 1 → rd m'.cells k < rd [5, 3, 8, 1, 9, 2] 5) ∧
      (∀ k, p ≤ k → k ≤ 5 → rd [5, 3, 8, 1, 9, 2] 5 ≤ rd m'.cells k) :=
  ⟨by decide, by decide, by decide,
    partition_postcondition { cells := [5, 3, 8, 1, 9, 2], trace := [], calls := [] } 0 5
      (by decide) (by decide) (by decide)⟩

/-- C3. On a range that is in bounds whenever it has more than one element, `quickSort`
returns for every recursion budget of at least `quickSortFuel low high`, leaves the range
sorted in ascending order and a permutation of what it held, and when `low ≥ high` it
returns the memory as it was. -/
theorem quickSort_sorts (m : Mem) (low high : Int) (fuel : Nat)
    (hb : low < high → 0 ≤ low ∧ high < m.cells.length)
    (hf : quickSortFuel low high ≤ fuel) :
    ∃ m', quickSort fuel m low high = some m' ∧
      List.Sorted (· ≤ ·) (window m'.cells low high) ∧
      (window m'.cells low high).Perm (window m.cells low high) ∧
      m'.cells.length = m.cells.length ∧
      (low ≥ high → m' = m) := by
  unfold quickSortFuel at hf
  by_cases hge : low ≥ high
  · obtain ⟨f, rfl⟩ : ∃ f, fuel = f + 1 := ⟨fuel - 1, by omega⟩
    refine ⟨m, by simp [quickSort, hge], ?_, List.Perm.refl _, rfl, fun _ => rfl⟩
    have hlen : (window m.cells low high).length ≤ 1 := by
      simp only [window, List.length_take]
      omega
    match hw : window m.cells low high, hlen with
    | [], _ => exact List.sorted_nil
    | [a], _ => exact List.sorted_singleton a
    | _ :: _ :: _, h => simp at h
  · obtain ⟨h0, hh⟩ := hb (by omega)
    obtain ⟨m', hq, hw, _, hs⟩ := quickSort_spec fuel m low high h0 hh (by omega)
    exact ⟨m', hq, sorted_window_of_sortedOn _ _ _ h0 (by rw [hw.len]; exact hh) hs,
      hw.window_perm h0, hw.len, fun h => absurd h hge⟩

theorem quickSort_sorts_witness :
    ((0 : Int) < 5 → (0 : Int) ≤ 0 ∧
      (5 : Int) < (({ cells := [5, 3, 8, 1, 9, 2], trace := [], calls := [] } : Mem).cells.length)) ∧
    quickSortFuel 0 5 ≤ 7 ∧
    ∃ m', quickSort 7 { cells := [5, 3, 8, 1, 9, 2], trace := [], calls := [] } 0 5 = some m' ∧
      List.Sorted (· ≤ ·) (window m'.cells 0 5) ∧
      (window m'.cells 0 5).Perm (window [5, 3, 8, 1, 9, 2] 0 5) ∧
      m'.cells.length = ([5, 3, 8, 1, 9, 2] : List Int).length ∧
      ((0 : Int) ≥ 5 → m' = { cells := [5, 3, 8, 1, 9, 2], trace := [], calls := [] }) :=
  ⟨fun _ => ⟨by decide, by decide⟩, by decide,
    quickSort_sorts { cells := [5, 3, 8, 1, 9, 2], trace := [], calls := [] } 0 5 7
      (fun _ => ⟨by decide, by decide⟩) (by decide)⟩

/-- C10. On an in-bounds range with `low ≤ high`, `partition` and `quickSort` return (no
access outside the array), every index they dereference lies in `[low, high]`, every cell
outside `[low, high]` keeps its value, every `partition` call made by `quickSort` has
`low < high`; and in every state of a parallel sort every `partition` call made so far had
`0 ≤ low < high < n` and every access so far was in bounds. -/
theorem accesses_confined (m : Mem) (low high : Int) (h0 : 0 ≤ low) (hlh : low ≤ high)
    (hh : high < m.cells.length) :
    (∃ p m', partition m low high = some (p, m') ∧
      (∃ t, m'.trace = t ++ m.trace ∧ ∀ x ∈ t, low ≤ x ∧ x ≤ high) ∧
      (∀ k : Int, k < low ∨ high < k → rd m'.cells k = rd m.cells k) ∧
      m'.cells.length = m.cells.length) ∧
    (∃ m', quickSort (quickSortFuel low high) m low high = some m' ∧
      (∃ t, m'.trace = t ++ m.trace ∧ ∀ x ∈ t, low ≤ x ∧ x ≤ high) ∧
      (∀ k : Int, k < low ∨ high < k → rd m'.cells k = rd m.cells k) ∧
      m'.cells.length = m.cells.length ∧
      (∃ cs, m'.calls = cs ++ m.calls ∧ ∀ c ∈ cs, low ≤ c.1 ∧ c.1 < c.2 ∧ c.2 ≤ high)) ∧
    (∀ (T : Int) (n : Nat) (S : List Int) (s : State), SortReachable T n S s →
      (∀ c ∈ s.mem.calls, 0 ≤ c.1 ∧ c.1 < c.2 ∧ c.2 < S.length) ∧
      (∀ x ∈ s.mem.trace, 0 ≤ x ∧ x < S.length)) := by
  refine ⟨?_, ?_, ?_⟩
  · obtain ⟨p, m', hp, hw, _⟩ := partition_spec m low high h0 hlh hh
    exact ⟨p, m', hp, hw.log, hw.frame, hw.len⟩
  · obtain ⟨m', hq, hw, hc, _⟩ := quickSort_spec (quickSortFuel low high) m low high h0 hh
      (by unfold quickSortFuel; omega)
    exact ⟨m', hq, hw.log, hw.frame, hw.len, hc⟩
  · intro T n S s hs
    have hi := sortReachable_inv T n S s hs
    exact ⟨hi.calls, hi.trace⟩

theorem accesses_confined_witness :
    (0 : Int) ≤ 1 ∧ (1 : Int) ≤ 4 ∧
    (4 : Int) < (({ cells := [5, 3, 8, 1, 9, 2], trace := [], calls := [] } : Mem).cells.length) ∧
    ((∃ p m', partition { cells := [5, 3, 8, 1, 9, 2], trace := [], calls := [] } 1 4 =
        some (p, m') ∧
      (∃ t, m'.trace = t ++ ([] : List Int) ∧ ∀ x ∈ t, 1 ≤ x ∧ x ≤ 4) ∧
      (∀ k : Int, k < 1 ∨ 4 < k → rd m'.cells k = rd [5, 3, 8, 1, 9, 2] k) ∧
      m'.cells.length = ([5, 3, 8, 1, 9, 2] : List Int).length) ∧
    (∃ m', quickSort (quickSortFuel 1 4) { cells := [5, 3, 8, 1, 9, 2], trace := [], calls := [] }
        1 4 = some m' ∧
      (∃ t, m'.trace = t ++ ([] : List Int) ∧ ∀ x ∈ t, 1 ≤ x ∧ x ≤ 4) ∧
      (∀ k : Int, k < 1 ∨ 4 < k → rd m'.cells k = rd [5, 3, 8, 1, 9, 2] k) ∧
      m'.cells.length = ([5, 3, 8, 1, 9, 2] : List Int).length ∧
      (∃ cs, m'.calls = cs ++ ([] : List (Int × Int)) ∧
        ∀ c ∈ cs, 1 ≤ c.1 ∧ c.1 < c.2 ∧ c.2 ≤ 4)) ∧
    (∀ (T : Int) (n : Nat) (S : List Int) (s : State), SortReachable T n S s →
      (∀ c ∈ s.mem.calls, 0 ≤ c.1 ∧ c.1 < c.2 ∧ c.2 < S.length) ∧
      (∀ x ∈ s.mem.trace, 0 ≤ x ∧ x < S.length))) :=
  ⟨by decide, by decide, by decide,
    accesses_confined { cells := [5, 3, 8, 1, 9, 2], trace := [], calls := [] } 1 4
      (by decide) (by decide) (by decide)⟩

/-! ## The claims about the pool -/

theorem getElem?_setThread (s : State) (i : Nat) (w v : Worker)
    (h : s.m_threads[i]? = some v) : (setThread s i w).m_threads[i]? = some w := by
  obtain ⟨hlt, _⟩ := List.getElem?_eq_some.mp h
  simp [setThread, List.getElem?_set, hlt]

/-- C4. When a worker is at the point of `parallelQuickSort` where the left sub-range
`[low, pi - 1]` is handled, its step submits that sub-range as a new task (queue and counter
grow by one, the array is untouched) exactly when `pi - low > T`, and otherwise sorts it
inline with `quickSort` (queue and counter unchanged); likewise for the right sub-range
`[pi + 1, high]` and `high - pi > T`.  A sub-range of length `T` is sorted inline, one of
length `T + 1` is submitted. -/
theorem threshold_decision (T : Int) (s s' : State) (i wake : Nat) (low pi high : Int)
    (hstep : threadFunc T s i wake = some s') :
    (s.m_threads[i]? = some (Worker.running (Phase.left low pi high)) →
      s'.m_threads[i]? = some (Worker.running (Phase.right low pi high)) ∧
      (s'.m_task_queue = s.m_task_queue ++ [(low, pi - 1)] ↔ pi - low > T) ∧
      (pi - low > T → s'.active_tasks = s.active_tasks + 1 ∧ s'.mem = s.mem) ∧
      (¬ pi - low > T → s'.m_task_queue = s.m_task_queue ∧
        s'.active_tasks = s.active_tasks ∧
        quickSort (quickSortFuel low (pi - 1)) s.mem low (pi - 1) = some s'.mem) ∧
      (pi - low = T → s'.m_task_queue = s.m_task_queue) ∧
      (pi - low = T + 1 → s'.m_task_queue = s.m_task_queue ++ [(low, pi - 1)])) ∧
    (s.m_threads[i]? = some (Worker.running (Phase.right low pi high)) →
      s'.m_threads[i]? = some (Worker.running Phase.ret) ∧
      (s'.m_task_queue = s.m_task_queue ++ [(pi + 1, high)] ↔ high - pi > T) ∧
      (high - pi > T → s'.active_tasks = s.active_tasks + 1 ∧ s'.mem = s.mem) ∧
      (¬ high - pi > T → s'.m_task_queue = s.m_task_queue ∧
        s'.active_tasks = s.active_tasks ∧
        quickSort (quickSortFuel (pi + 1) high) s.mem (pi + 1) high = some s'.mem) ∧
      (high - pi = T → s'.m_task_queue = s.m_task_queue) ∧
      (high - pi = T + 1 → s'.m_task_queue = s.m_task_queue ++ [(pi + 1, high)])) := by
  have hm := threadFunc_move T s s' i wake hstep
  have hne : ∀ (q : List (Int × Int)) (t : Int × Int), q ≠ q ++ [t] := by
    intro q t h
    have := congrArg List.length h
    simp at this
  constructor
  · intro hw
    cases hm with
    | idle w w' hw' h1 h2 => rw [hw] at hw'; cases hw'; simp [Worker.isRunning] at h1
    | dequeue w t q hw' h1 hq => rw [hw] at hw'; cases hw'; simp [Worker.isRunning] at h1
    | skip l h hw' hge => rw [hw] at hw'; cases hw'
    | split l h p m hw' hlt hp => rw [hw] at hw'; cases hw'
    | leftPush l p h s1 hw' hT hp =>
      rw [hw] at hw'; cases hw'
      obtain ⟨ha, hq, _, hmem⟩ := pushTask_counter _ _ _ _ _ hp
      have hw1 := pushTask_running _ _ _ _ _ hp i _ hw
      refine ⟨getElem?_setThread _ _ _ _ hw1, ⟨fun _ => hT, fun _ => hq⟩, fun _ => ⟨ha, hmem⟩,
        fun h => absurd hT h, fun h => by omega, fun _ => hq⟩
    | leftInline l p h m hw' hT hq =>
      rw [hw] at hw'; cases hw'
      refine ⟨getElem?_setThread _ _ _ _ hw, ⟨fun h => absurd h (hne _ _), fun h => absurd h hT⟩,
        fun h => absurd h hT, fun _ => ⟨rfl, rfl, hq⟩, fun _ => rfl, fun h => by omega⟩
    | rightPush l p h s1 hw' hT hp => rw [hw] at hw'; cases hw'
    | rightInline l p h m hw' hT hq => rw [hw] at hw'; cases hw'
    | finish hw' => rw [hw] at hw'; cases hw'
  · intro hw
    cases hm with
    | idle w w' hw' h1 h2 => rw [hw] at hw'; cases hw'; simp [Worker.isRunning] at h1
    | dequeue w t q hw' h1 hq => rw [hw] at hw'; cases hw'; simp [Worker.isRunning] at h1
    | skip l h hw' hge => rw [hw] at hw'; cases hw'
    | split l h p m hw' hlt hp => rw [hw] at hw'; cases hw'
    | leftPush l p h s1 hw' hT hp => rw [hw] at hw'; cases hw'
    | leftInline l p h m hw' hT hq => rw [hw] at hw'; cases hw'
    | rightPush l p h s1 hw' hT hp =>
      rw [hw] at hw'; cases hw'
      obtain ⟨ha, hq, _, hmem⟩ := pushTask_counter _ _ _ _ _ hp
      have hw1 := pushTask_running _ _ _ _ _ hp i _ hw
      refine ⟨getElem?_setThread _ _ _ _ hw1, ⟨fun _ => hT, fun _ => hq⟩, fun _ => ⟨ha, hmem⟩,
        fun h => absurd hT h, fun h => by omega, fun _ => hq⟩
    | rightInline l p h m hw' hT hq =>
      rw [hw] at hw'; cases hw'
      refine ⟨getElem?_setThread _ _ _ _ hw, ⟨fun h => absurd h (hne _ _), fun h => absurd h hT⟩,
        fun h => absurd h hT, fun _ => ⟨rfl, rfl, hq⟩, fun _ => rfl, fun h => by omega⟩
    | finish hw' => rw [hw] at hw'; cases hw'

theorem threshold_decision_witness :
    threadFunc 0 demoLeft 0 0 = some demoRight ∧
    demoLeft.m_threads[0]? = some (Worker.running (Phase.left 0 1 2)) ∧
    demoRight.m_threads[0]? = some (Worker.running (Phase.right 0 1 2)) ∧
    (demoRight.m_task_queue = demoLeft.m_task_queue ++ [((0 : Int), (1 : Int) - 1)] ↔
      (1 : Int) - 0 > 0) :=
  ⟨by decide, by decide,
    ((threshold_decision 0 demoLeft demoRight 0 0 0 1 2 (by decide)).1 (by decide)).1,
    ((threshold_decision 0 demoLeft demoRight 0 0 0 1 2 (by decide)).1 (by decide)).2.1⟩

/-- C5. In every reachable state of the pool `active_tasks` equals the number of queued
tasks plus the number of tasks being executed; every step either is a submission (counter
and queue grow by one), or the completion of a task (the counter is positive and drops by
one, one task fewer is in execution), or leaves the counter and the number of outstanding
tasks unchanged; in particular a task that is about to decrement finds the counter
positive, so the `size_t` never wraps. -/
theorem active_tasks_counts_outstanding (T : Int) (s : State) (h : Reachable T s) :
    s.active_tasks = s.m_task_queue.length + busy s.m_threads ∧
    (∀ a s', step T s a = some s' → CounterDelta s s') ∧
    (∀ i : Nat, s.m_threads[i]? = some (Worker.running Phase.ret) → 0 < s.active_tasks) := by
  have hc := reachable_counter T s h
  refine ⟨hc, fun a s' hs => step_delta T s s' a hs hc, fun i hi => ?_⟩
  have := busy_pos_of_running _ _ _ hi
  unfold CounterInv at hc
  omega

theorem active_tasks_counts_outstanding_witness :
    Reachable THRESHOLD demoRunning ∧
    demoRunning.active_tasks = demoRunning.m_task_queue.length + busy demoRunning.m_threads ∧
    (∀ a s', step THRESHOLD demoRunning a = some s' → CounterDelta demoRunning s') ∧
    (∀ i : Nat, demoRunning.m_threads[i]? = some (Worker.running Phase.ret) →
      0 < demoRunning.active_tasks) :=
  ⟨⟨1, [2, 1], [Action.submit 0 1 0, Action.thread 0 0], by decide⟩,
    active_tasks_counts_outstanding THRESHOLD demoRunning
      ⟨1, [2, 1], [Action.submit 0 1 0, Action.thread 0 0], by decide⟩⟩

/-- C1. For every array `S`, every threshold `T` and every pool with at least one worker:
in every state reached after the single top-level task over `[0, n - 1]` was submitted, if
`active_tasks` is zero then the queue is empty, no task is running, and the array is sorted
in ascending order and a permutation of `S`; and such a state is reached (letting worker 0
run alone completes the sort). -/
theorem parallel_sort_correct (T : Int) (n : Nat) (S : List Int) (hn : 1 ≤ n) :
    (∀ s, SortReachable T n S s → s.active_tasks = 0 →
      s.m_task_queue = [] ∧ (∀ w ∈ s.m_threads, w.isRunning = false) ∧
      List.Sorted (· ≤ ·) s.mem.cells ∧ s.mem.cells.Perm S) ∧
    (∃ s, SortReachable T n S s ∧ s.active_tasks = 0) := by
  constructor
  · intro s hs h0
    exact (sortReachable_inv T n S s hs).quiescent h0
  · obtain ⟨k, rfl⟩ : ∃ k, n = k + 1 := ⟨n - 1, by omega⟩
    have hsolo : Solo (start (k + 1) S) Worker.loopHead (List.replicate k Worker.loopHead) :=
      ⟨by simp [start, List.replicate_succ], fun w hw => List.eq_of_mem_replicate hw,
        Or.inl rfl, rfl⟩
    have hpush := hsolo.pushTask 0 ((S.length : Int) - 1)
    have hi1 := submit_sortInv S _ _ 0 (start_idleInv (k + 1) S) hpush
    have hsolo1 : Solo { start (k + 1) S with
        active_tasks := (start (k + 1) S).active_tasks + 1,
        m_task_queue := (start (k + 1) S).m_task_queue ++ [(0, (S.length : Int) - 1)] }
        Worker.loopHead (List.replicate k Worker.loopHead) :=
      ⟨hsolo.threads, hsolo.rest, Or.inl rfl, rfl⟩
    obtain ⟨j, s', hr, hz, _⟩ := solo_terminates T S _ _ _ _ hi1 hsolo1 (le_refl _)
    refine ⟨s', ⟨[], List.replicate j (Action.thread 0 0), 0, by simp, ?_, ?_⟩, hz⟩
    · intro a ha
      rw [List.eq_of_mem_replicate ha]
      rfl
    · simp only [List.nil_append, run, step, hpush, Option.some_bind, hr]

theorem parallel_sort_correct_witness :
    1 ≤ 1 ∧
    (run 0 demoSchedule (start 1 [5, 3, 8, 1, 9, 2])).map
      (fun s => (s.mem.cells, s.active_tasks, s.m_task_queue)) =
      some ([1, 2, 3, 5, 8, 9], 0, []) ∧
    (∀ s, SortReachable 0 1 [5, 3, 8, 1, 9, 2] s → s.active_tasks = 0 →
      s.m_task_queue = [] ∧ (∀ w ∈ s.m_threads, w.isRunning = false) ∧
      List.Sorted (· ≤ ·) s.mem.cells ∧ s.mem.cells.Perm [5, 3, 8, 1, 9, 2]) ∧
    (∃ s, SortReachable 0 1 [5, 3, 8, 1, 9, 2] s ∧ s.active_tasks = 0) :=
  ⟨by decide, by decide, parallel_sort_correct 0 1 [5, 3, 8, 1, 9, 2] (by decide)⟩

/-- C6, the claim as stated fails: there is no state, reached after the top-level
submission, in which `active_tasks` is zero while a task is still queued or running or the
array is not yet sorted. -/
theorem no_transient_zero :
    ¬ ∃ (T : Int) (n : Nat) (S : List Int) (s : State), SortReachable T n S s ∧
      s.active_tasks = 0 ∧
      (s.m_task_queue ≠ [] ∨ (∃ w ∈ s.m_threads, w.isRunning = true) ∨
        ¬ List.Sorted (· ≤ ·) s.mem.cells) := by
  rintro ⟨T, n, S, s, hs, h0, hbad⟩
  obtain ⟨hq, hidle, hsorted, _⟩ := (sortReachable_inv T n S s hs).quiescent h0
  rcases hbad with h | ⟨w, hw, hr⟩ | h
  · exact h hq
  · rw [hidle w hw] at hr
    simp at hr
  · exact h hsorted

/-- C6 as amended.  After the top-level submission a task keeps `active_tasks` positive at
every program point of its body, in particular while sub-ranges are still to be submitted:
the closure decrements only after `parallelQuickSort` has returned, and by then its
children have been enqueued and counted.  So a queued or running task means a positive
counter, and a zero counter means that the array is sorted and a permutation of `S`. -/
theorem counter_zero_only_when_done (T : Int) (n : Nat) (S : List Int) (s : State)
    (h : SortReachable T n S s) :
    (∀ (i : Nat) (p : Phase), s.m_threads[i]? = some (Worker.running p) →
      0 < s.active_tasks) ∧
    (s.m_task_queue ≠ [] → 0 < s.active_tasks) ∧
    (∀ (i wake : Nat) (s' : State), threadFunc T s i wake = some s' →
      s'.active_tasks < s.active_tasks →
      s.m_threads[i]? = some (Worker.running Phase.ret)) ∧
    (s.active_tasks = 0 → List.Sorted (· ≤ ·) s.mem.cells ∧ s.mem.cells.Perm S) := by
  have hi := sortReachable_inv T n S s h
  have hc := hi.counter
  unfold CounterInv at hc
  refine ⟨?_, ?_, ?_, ?_⟩
  · intro i p hp
    have := busy_pos_of_running _ _ _ hp
    omega
  · intro hq
    have : 0 < s.m_task_queue.length := List.length_pos.mpr hq
    omega
  · intro i wake s' hstep hlt
    have hm := threadFunc_move T s s' i wake hstep
    cases hm with
    | idle w w' hw h1 h2 => simp [setThread] at hlt
    | dequeue w t q hw h1 hq => simp [setThread] at hlt
    | skip l h hw hge => simp [setThread] at hlt
    | split l h p m hw hlt' hp => simp [setThread] at hlt
    | leftPush l p h s1 hw hT hp =>
      obtain ⟨ha, _⟩ := pushTask_counter _ _ _ _ _ hp
      simp only [setThread] at hlt
      omega
    | leftInline l p h m hw hT hq => simp [setThread] at hlt
    | rightPush l p h s1 hw hT hp =>
      obtain ⟨ha, _⟩ := pushTask_counter _ _ _ _ _ hp
      simp only [setThread] at hlt
      omega
    | rightInline l p h m hw hT hq => simp [setThread] at hlt
    | finish hw => exact hw
  · intro h0
    obtain ⟨_, _, hsorted, hperm⟩ := hi.quiescent h0
    exact ⟨hsorted, hperm⟩

theorem demoSplit_reachable : SortReachable 0 1 [1, 3, 2] demoSplit :=
  ⟨[], [Action.thread 0 0, Action.thread 0 0], 0, by simp, by decide, by decide⟩

theorem counter_zero_only_when_done_witness :
    SortReachable 0 1 [1, 3, 2] demoSplit ∧
    demoSplit.m_threads[0]? = some (Worker.running (Phase.left 0 1 2)) ∧
    demoSplit.m_task_queue = [] ∧ 0 < demoSplit.active_tasks :=
  ⟨demoSplit_reachable, by decide, by decide,
    (counter_zero_only_when_done 0 1 [1, 3, 2] demoSplit demoSplit_reachable).1 0
      (Phase.left 0 1 2) (by decide)⟩

/-- C8. In every state reached after the top-level submission the ranges of the queued
tasks are pairwise disjoint, and so are the ranges of all outstanding work (queued tasks
and the sub-ranges running tasks still own); and whenever a step of a worker appends a task
`t` to the queue, the worker is at the left or right sub-range of a task over `[low, high]`
with pivot index `pi`, `t` is `[low, pi - 1]` respectively `[pi + 1, high]`, and `t` lies
inside `[low, high]` and does not contain `pi`. -/
theorem submitted_ranges_disjoint (T : Int) (n : Nat) (S : List Int) (s : State)
    (h : SortReachable T n S s) :
    s.m_task_queue.Pairwise RangesDisjoint ∧ (pending s).Pairwise RangesDisjoint ∧
    (∀ (i wake : Nat) (s' : State) (t : Int × Int), threadFunc T s i wake = some s' →
      s'.m_task_queue = s.m_task_queue ++ [t] →
      ∃ low pi high : Int,
        (s.m_threads[i]? = some (Worker.running (Phase.left low pi high)) ∧
            t = (low, pi - 1) ∨
          s.m_threads[i]? = some (Worker.running (Phase.right low pi high)) ∧
            t = (pi + 1, high)) ∧
        low ≤ t.1 ∧ t.2 ≤ high ∧ (t.2 < pi ∨ pi < t.1)) := by
  have hi := sortReachable_inv T n S s h
  refine ⟨hi.pend.disj.sublist (List.sublist_append_left _ _), hi.pend.disj, ?_⟩
  intro i wake s' t hstep hq
  have hne : ∀ (q : List (Int × Int)) (t : Int × Int), q ≠ q ++ [t] := by
    intro q t h
    have := congrArg List.length h
    simp at this
  have hm := threadFunc_move T s s' i wake hstep
  cases hm with
  | idle w w' hw h1 h2 => exact absurd hq (hne _ _)
  | dequeue w t0 q hw h1 hq0 =>
    simp only [setThread] at hq
    rw [hq0] at hq
    have := congrArg List.length hq
    simp at this
    omega
  | skip l h hw hge => exact absurd hq (hne _ _)
  | split l h p m hw hlt hp => exact absurd hq (hne _ _)
  | leftPush l p h s1 hw hT hp =>
    obtain ⟨_, hq1, _, _⟩ := pushTask_counter _ _ _ _ _ hp
    simp only [setThread] at hq
    rw [hq1] at hq
    have e := List.append_cancel_left hq
    simp only [List.cons.injEq, and_true] at e
    subst e
    have hwf : (Worker.running (Phase.left l p h)).wf := hi.wf _ (List.getElem?_mem hw)
    simp only [Worker.wf, Phase.wf] at hwf
    exact ⟨l, p, h, Or.inl ⟨hw, rfl⟩, le_refl _, by simp only; omega, Or.inl (by simp only; omega)⟩
  | leftInline l p h m hw hT hq0 => exact absurd hq (hne _ _)
  | rightPush l p h s1 hw hT hp =>
    obtain ⟨_, hq1, _, _⟩ := pushTask_counter _ _ _ _ _ hp
    simp only [setThread] at hq
    rw [hq1] at hq
    have e := List.append_cancel_left hq
    simp only [List.cons.injEq, and_true] at e
    subst e
    have hwf : (Worker.running (Phase.right l p h)).wf := hi.wf _ (List.getElem?_mem hw)
    simp only [Worker.wf, Phase.wf] at hwf
    exact ⟨l, p, h, Or.inr ⟨hw, rfl⟩, by simp only; omega, le_refl _, Or.inr (by simp only; omega)⟩
  | rightInline l p h m hw hT hq0 => exact absurd hq (hne _ _)
  | finish hw => exact absurd hq (hne _ _)

theorem demoFanOut_reachable : SortReachable 0 1 [1, 3, 2] demoFanOut :=
  ⟨[], [Action.thread 0 0, Action.thread 0 0, Action.thread 0 0, Action.thread 0 0], 0,
    by simp, by decide, by decide⟩

theorem submitted_ranges_disjoint_witness :
    SortReachable 0 1 [1, 3, 2] demoFanOut ∧
    demoFanOut.m_task_queue = [(0, 0), (2, 2)] ∧
    demoFanOut.m_task_queue.Pairwise RangesDisjoint :=
  ⟨demoFanOut_reachable, rfl,
    (submitted_ranges_disjoint 0 1 [1, 3, 2] demoFanOut demoFanOut_reachable).1⟩

/-- In every reachable state of the pool with `active_tasks` at zero the queue is empty and
no worker is executing a task: a `stop()` issued then finds no task to drop. -/
theorem zero_counter_means_idle (T : Int) (s : State) (h : Reachable T s)
    (h0 : s.active_tasks = 0) :
    s.m_task_queue = [] ∧ ∀ w ∈ s.m_threads, w.isRunning = false := by
  have hc := reachable_counter T s h
  unfold CounterInv at hc
  exact ⟨List.eq_nil_of_length_eq_zero (by omega), idle_of_busy_zero _ (by omega)⟩

/-- C7, the failing schedule.  With the program's threshold, one worker sorts `[2, 1]` and
the counter returns to zero.  The worker locks the queue, finds `m_work` set and the queue
empty, and evaluates the wait predicate to false.  Before it blocks, `stop()` (called with
the counter at zero) clears `m_work` and calls `notify_all()`, which finds no thread
waiting.  The worker then blocks.  From that state no step of a worker and no step of
`stop()` is possible: only a spurious wake-up or a new `pushTask` could move the worker, so
it never leaves its loop and the join in `stop()` does not return. -/
theorem stop_can_hang :
    run THRESHOLD
      [Action.submit 0 1 0, Action.thread 0 0, Action.thread 0 0, Action.thread 0 0,
        Action.thread 0 0, Action.thread 0 0] (start 1 [2, 1]) = some demoSorted ∧
    getActiveTasksCount demoSorted = 0 ∧
    run THRESHOLD [Action.thread 0 0, Action.stopStore, Action.stopNotify, Action.thread 0 0]
      demoSorted = some demoDeadlock ∧
    demoDeadlock.m_threads = [Worker.blocked] ∧
    (∀ a s', step THRESHOLD demoDeadlock a = some s' →
      (∃ i, a = Action.spurious i) ∨ (∃ l h w, a = Action.submit l h w)) := by
  refine ⟨by decide, by decide, by decide, rfl, ?_⟩
  intro a s' h
  cases a with
  | submit l u w => exact Or.inr ⟨l, u, w, rfl⟩
  | stopStore => simp [step, demoDeadlock] at h
  | stopNotify => simp [step, demoDeadlock] at h
  | thread i wake =>
    cases i with
    | zero => simp [step, threadFunc, demoDeadlock] at h
    | succ i => simp [step, threadFunc, demoDeadlock] at h
  | spurious i => exact Or.inl ⟨i, rfl⟩

theorem rd_mem (xs : List Int) (k : Int) (h0 : 0 ≤ k) (h1 : k < xs.length) : rd xs k ∈ xs := by
  have h : k.toNat < xs.length := by omega
  rw [rd_eq_getElem xs k h0 h]
  exact List.getElem_mem h

theorem partition_flat (T : Int) (hT : 0 ≤ T) :
    ∃ m', partition { cells := flat T, trace := [], calls := [] } 0 (T + 1) = some (0, m') := by
  have hlen : ((flat T).length : Int) = T + 2 := by
    simp only [flat, List.length_replicate]
    push_cast
    omega
  obtain ⟨p, m', hp, hw, _, hl, hu, _, hlo, _⟩ :=
    partition_spec { cells := flat T, trace := [], calls := [] } 0 (T + 1) (le_refl _)
      (by omega) (by show T + 1 < ((flat T).length : Int); omega)
  have hp0 : p = 0 := by
    by_contra hne
    have h1 := hlo 0 (le_refl _) (by omega)
    have h2 : rd m'.cells 0 = 0 := by
      have hm := rd_mem m'.cells 0 (le_refl _) (by rw [hw.len]; show (0 : Int) < (flat T).length; omega)
      exact List.eq_of_mem_replicate (hw.perm.mem_iff.mp hm)
    have h3 : rd (flat T) (T + 1) = 0 :=
      List.eq_of_mem_replicate (rd_mem (flat T) (T + 1) (by omega) (by omega))
    simp only at h1
    rw [h2, h3] at h1
    exact lt_irrefl _ h1
  subst hp0
  exact ⟨m', hp⟩

theorem stranded_reachable (T : Int) (hT : 0 ≤ T) :
    ∃ m, SortReachable T 1 (flat T) (stranded T m) := by
  obtain ⟨m', hp⟩ := partition_flat T hT
  have hlen : ((flat T).length : Int) - 1 = T + 1 := by
    simp only [flat, List.length_replicate]
    push_cast
    omega
  have h1 : ¬ (T + 1 ≤ 0) := by omega
  have h2 : ¬ (T < 0) := by omega
  have h3 : T < T + 1 := by omega
  have hq : quickSort (quickSortFuel 0 (-1)) m' 0 (-1) = some m' := by
    simp [quickSort, quickSortFuel]
  refine ⟨m', [], [Action.thread 0 0, Action.stopStore, Action.thread 0 0, Action.thread 0 0,
    Action.thread 0 0, Action.thread 0 0], 0, by simp, by decide, ?_⟩
  rw [hlen]
  simp [run, step, pushTask, notifyOne, threadFunc, parallelQuickSort, setThread, start,
    decrement, hp, hq, h1, h2, h3, stranded]

theorem step_stuck (T : Int) (q0 : List (Int × Int)) (s s' : State) (a : Action)
    (h : step T s a = some s') (hs : Stuck q0 s) : Stuck q0 s' := by
  have hcnt := step_counter T s s' a h hs.counter
  have hnot : ∀ (i : Nat) (w : Worker), s.m_threads[i]? = some w →
      w = Worker.loopHead ∨ w = Worker.exited :=
    fun i w hw => hs.threads w (List.getElem?_mem hw)
  obtain ⟨extra, hq⟩ := hs.queue
  cases a with
  | submit low high wake =>
    simp only [step, pushTask] at h
    split at h
    · simp at h
    · simp only [Option.map_eq_some'] at h
      obtain ⟨ws, hn, rfl⟩ := h
      have hws : ws = s.m_threads := by
        unfold notifyOne at hn
        split at hn
        · next hb => rcases hnot _ _ hb with e | e <;> simp at e
        · split at hn
          · simp at hn
          · simpa using hn.symm
      subst hws
      exact ⟨hs.work, hs.threads, ⟨extra ++ [(low, high)], by simp [hq]⟩, hcnt⟩
  | stopStore =>
    simp only [step] at h
    split at h
    · simp only [Option.some.injEq] at h; subst h
      exact ⟨rfl, hs.threads, ⟨extra, hq⟩, hcnt⟩
    · simp at h
  | stopNotify =>
    simp only [step] at h
    split at h
    · simp only [Option.some.injEq] at h; subst h
      refine ⟨hs.work, ?_, ⟨extra, hq⟩, hcnt⟩
      intro w hw
      unfold notifyAll at hw
      obtain ⟨v, hv, rfl⟩ := List.mem_map.mp hw
      rcases hs.threads v hv with e | e <;> subst e <;> simp
    · simp at h
  | thread i wake =>
    simp only [step] at h
    unfold threadFunc at h
    split at h
    · simp at h
    · split at h
      · simp at h
      · simp only [hs.work, if_true, Option.some.injEq] at h
        subst h
        refine ⟨hs.work, ?_, ⟨extra, hq⟩, hcnt⟩
        intro w hw
        rcases List.mem_or_eq_of_mem_set hw with h1 | h1
        · exact hs.threads w h1
        · exact Or.inr h1
    · next hw => rcases hnot _ _ hw with e | e <;> simp at e
    · simp at h
    · next hw => rcases hnot _ _ hw with e | e <;> simp at e
    · next hw => rcases hnot _ _ hw with e | e <;> simp at e
    · next hw => rcases hnot _ _ hw with e | e <;> simp at e
    · simp at h
  | spurious i =>
    simp only [step] at h
    split at h
    · next hb => rcases hnot _ _ hb with e | e <;> simp at e
    · simp at h

/-- C9. For every threshold `T ≥ 0` there is a state, reached after the top-level
submission and a `stop()` issued while the counter was not zero, in which the run flag is
cleared, the queue is not empty and the counter is not zero; in it the next step of every
worker is to return from `threadFunc` without dequeuing; and in every state reachable from
it, whatever happens, the stranded tasks are still at the head of the queue, no worker
executes a task, and `active_tasks` is not zero. -/
theorem stop_strands_tasks (T : Int) (hT : 0 ≤ T) :
    ∃ (S : List Int) (s : State), SortReachable T 1 S s ∧ s.m_work = false ∧
      s.m_task_queue ≠ [] ∧ s.active_tasks ≠ 0 ∧
      (∀ (i : Nat) (w : Worker), s.m_threads[i]? = some w → ∀ wake : Nat,
        ∃ s', threadFunc T s i wake = some s' ∧ s'.m_threads[i]? = some Worker.exited ∧
          s'.m_task_queue = s.m_task_queue ∧ s'.active_tasks = s.active_tasks) ∧
      (∀ (acts : List Action) (s' : State), run T acts s = some s' →
        (∃ extra, s'.m_task_queue = s.m_task_queue ++ extra) ∧ s'.active_tasks ≠ 0 ∧
        (∀ w ∈ s'.m_threads, w.isRunning = false)) := by
  obtain ⟨m, hr⟩ := stranded_reachable T hT
  refine ⟨flat T, stranded T m, hr, rfl, by simp [stranded], by simp [stranded], ?_, ?_⟩
  · intro i w hw wake
    cases i with
    | zero =>
      exact ⟨setThread (stranded T m) 0 Worker.exited, by simp [threadFunc, stranded],
        by simp [setThread, stranded], rfl, rfl⟩
    | succ i => simp [stranded] at hw
  · intro acts s' hrun
    have h0 : Stuck (stranded T m).m_task_queue (stranded T m) :=
      ⟨rfl, by simp [stranded], ⟨[], by simp⟩, by simp [CounterInv, stranded, busy, Worker.isRunning]⟩
    have hs := run_invariant T (Stuck (stranded T m).m_task_queue)
      (fun s1 s2 a h hst => step_stuck T _ s1 s2 a h hst) acts _ _ hrun h0
    obtain ⟨extra, hq⟩ := hs.queue
    have hc := hs.counter
    unfold CounterInv at hc
    refine ⟨⟨extra, hq⟩, ?_, ?_⟩
    · rw [hc, hq]
      simp [stranded]
    · intro w hw
      rcases hs.threads w hw with e | e <;> subst e <;> rfl

theorem stop_strands_tasks_witness :
    (0 : Int) ≤ THRESHOLD ∧
    ∃ (S : List Int) (s : State), SortReachable THRESHOLD 1 S s ∧ s.m_work = false ∧
      s.m_task_queue ≠ [] ∧ s.active_tasks ≠ 0 ∧
      (∀ (i : Nat) (w : Worker), s.m_threads[i]? = some w → ∀ wake : Nat,
        ∃ s', threadFunc THRESHOLD s i wake = some s' ∧
          s'.m_threads[i]? = some Worker.exited ∧
          s'.m_task_queue = s.m_task_queue ∧ s'.active_tasks = s.active_tasks) ∧
      (∀ (acts : List Action) (s' : State), run THRESHOLD acts s = some s' →
        (∃ extra, s'.m_task_queue = s.m_task_queue ++ extra) ∧ s'.active_tasks ≠ 0 ∧
        (∀ w ∈ s'.m_threads, w.isRunning = false)) :=
  ⟨by decide, stop_strands_tasks THRESHOLD (by decide)⟩

end PoolSort
